import Mathlib

/-!
Verification of the schema-driven YAML/INI configuration generator
(`yaml_generator.py`) against its natural-language specification.

The development is a shallow embedding of the relevant Python functions:
Python strings are modelled as `List Char` (called `Str`), JSON values as
the inductive `Val`, dictionaries as association lists, and the process
filesystem as an association list from paths to contents.  Python's
`re.search` on user-supplied scenario regexes is modelled as an explicit
oracle parameter `regexSearch : Str → Str → Bool`; the two fixed regexes of
the smart quoter (`^(true|false|yes|no|on|off)$` with IGNORECASE and
`^[\d\.]+$`, together with Python's rule that `$` also matches just before
a final newline) are modelled concretely, restricted to ASCII case rules.
-/

set_option maxHeartbeats 1000000

namespace YamlGen

/-- Python strings, modelled as lists of characters. -/
abbrev Str := List Char

/-- JSON-style values, the payload of `default_value` and friends. -/
inductive Val where
  | str : Str → Val
  | num : Int → Val
  | bool : Bool → Val
  | arr : List Val → Val
  | obj : List (Str × Val) → Val

/-- Python truthiness of a JSON value (`if v:`). -/
def Val.truthy : Val → Bool
  | .str s => !s.isEmpty
  | .num n => n != 0
  | .bool b => b
  | .arr l => !l.isEmpty
  | .obj l => !l.isEmpty

/-- The schema node record of `yaml_generator.SchemaNode` (dataclass,
13 fields; `children` makes it a nested inductive). -/
inductive SchemaNode where
  | mk (key : Str)
       (multi_type : List Str)
       (item_multi_type : List Str)
       (description : Str)
       (default_value : Option Val)
       (required : Bool)
       (override_strategy : Str)
       (override_hint : Bool)
       (is_override : Bool)
       (regex_enable : Bool)
       (regex : Option Str)
       (condition : Option Val)
       (children : List SchemaNode)

namespace SchemaNode

def key : SchemaNode → Str
  | mk k _ _ _ _ _ _ _ _ _ _ _ _ => k

def multi_type : SchemaNode → List Str
  | mk _ m _ _ _ _ _ _ _ _ _ _ _ => m

def item_multi_type : SchemaNode → List Str
  | mk _ _ i _ _ _ _ _ _ _ _ _ _ => i

def description : SchemaNode → Str
  | mk _ _ _ d _ _ _ _ _ _ _ _ _ => d

def default_value : SchemaNode → Option Val
  | mk _ _ _ _ v _ _ _ _ _ _ _ _ => v

def required : SchemaNode → Bool
  | mk _ _ _ _ _ r _ _ _ _ _ _ _ => r

def override_strategy : SchemaNode → Str
  | mk _ _ _ _ _ _ s _ _ _ _ _ _ => s

def override_hint : SchemaNode → Bool
  | mk _ _ _ _ _ _ _ h _ _ _ _ _ => h

def is_override : SchemaNode → Bool
  | mk _ _ _ _ _ _ _ _ o _ _ _ _ => o

def regex_enable : SchemaNode → Bool
  | mk _ _ _ _ _ _ _ _ _ e _ _ _ => e

def regex : SchemaNode → Option Str
  | mk _ _ _ _ _ _ _ _ _ _ r _ _ => r

def condition : SchemaNode → Option Val
  | mk _ _ _ _ _ _ _ _ _ _ _ c _ => c

def children : SchemaNode → List SchemaNode
  | mk _ _ _ _ _ _ _ _ _ _ _ _ c => c

end SchemaNode

section AccessorLemmas

variable (k : Str) (m i : List Str) (d : Str) (v : Option Val) (r : Bool) (s : Str)
variable (h o e : Bool) (rx : Option Str) (c : Option Val) (ch : List SchemaNode)

@[simp] theorem key_mk : (SchemaNode.mk k m i d v r s h o e rx c ch).key = k := rfl

@[simp] theorem multi_type_mk : (SchemaNode.mk k m i d v r s h o e rx c ch).multi_type = m := rfl

@[simp] theorem item_multi_type_mk :
    (SchemaNode.mk k m i d v r s h o e rx c ch).item_multi_type = i := rfl

@[simp] theorem description_mk :
    (SchemaNode.mk k m i d v r s h o e rx c ch).description = d := rfl

@[simp] theorem default_value_mk :
    (SchemaNode.mk k m i d v r s h o e rx c ch).default_value = v := rfl

@[simp] theorem required_mk : (SchemaNode.mk k m i d v r s h o e rx c ch).required = r := rfl

@[simp] theorem override_strategy_mk :
    (SchemaNode.mk k m i d v r s h o e rx c ch).override_strategy = s := rfl

@[simp] theorem override_hint_mk :
    (SchemaNode.mk k m i d v r s h o e rx c ch).override_hint = h := rfl

@[simp] theorem is_override_mk :
    (SchemaNode.mk k m i d v r s h o e rx c ch).is_override = o := rfl

@[simp] theorem regex_enable_mk :
    (SchemaNode.mk k m i d v r s h o e rx c ch).regex_enable = e := rfl

@[simp] theorem regex_mk : (SchemaNode.mk k m i d v r s h o e rx c ch).regex = rx := rfl

@[simp] theorem condition_mk : (SchemaNode.mk k m i d v r s h o e rx c ch).condition = c := rfl

@[simp] theorem children_mk : (SchemaNode.mk k m i d v r s h o e rx c ch).children = ch := rfl

end AccessorLemmas

/-- Two schema nodes are equal once all thirteen attributes agree. -/
theorem SchemaNode.ext {a b : SchemaNode}
    (h1 : a.key = b.key) (h2 : a.multi_type = b.multi_type)
    (h3 : a.item_multi_type = b.item_multi_type) (h4 : a.description = b.description)
    (h5 : a.default_value = b.default_value) (h6 : a.required = b.required)
    (h7 : a.override_strategy = b.override_strategy) (h8 : a.override_hint = b.override_hint)
    (h9 : a.is_override = b.is_override) (h10 : a.regex_enable = b.regex_enable)
    (h11 : a.regex = b.regex) (h12 : a.condition = b.condition)
    (h13 : a.children = b.children) : a = b := by
  cases a; cases b
  simp_all [SchemaNode.key, SchemaNode.multi_type, SchemaNode.item_multi_type,
    SchemaNode.description, SchemaNode.default_value, SchemaNode.required,
    SchemaNode.override_strategy, SchemaNode.override_hint, SchemaNode.is_override,
    SchemaNode.regex_enable, SchemaNode.regex, SchemaNode.condition, SchemaNode.children]

mutual

/-- Size measure used for termination of the merger. -/
def nsize : SchemaNode → Nat
  | .mk _ _ _ _ _ _ _ _ _ _ _ _ children => 1 + lsize children

/-- Size of a list of schema nodes. -/
def lsize : List SchemaNode → Nat
  | [] => 0
  | n :: rest => 1 + nsize n + lsize rest

end

theorem nsize_children_lt (n : SchemaNode) : lsize n.children < nsize n := by
  cases n with
  | mk k m i d v r s h o e rx c children =>
      simp [nsize, SchemaNode.children]

theorem lsize_mem_lt {n : SchemaNode} {l : List SchemaNode} (h : n ∈ l) :
    nsize n < lsize l := by
  induction l with
  | nil => cases h
  | cons x xs ih =>
      rcases List.mem_cons.mp h with h | h
      · subst h; simp [lsize]; omega
      · have := ih h
        simp [lsize]; omega

/-- The literal `"replace"` (value of `OverrideStrategy.REPLACE`). -/
def replaceStr : Str := ['r', 'e', 'p', 'l', 'a', 'c', 'e']

/-- Truthiness of the `regex` attribute (`if override.regex:`):
non-`None` and non-empty. -/
def regexTruthy : Option Str → Bool
  | none => false
  | some s => !s.isEmpty

/-- Truthiness of the `condition` attribute (`if override.condition:`). -/
def condTruthy : Option Val → Bool
  | none => false
  | some v => v.truthy

/-- `override.key in source_map`: under the invariant maintained by
`merge_nodes`, the keys of `source_map` are exactly the non-empty keys
occurring in the current node list. -/
def keyMem (k : Str) (l : List SchemaNode) : Bool :=
  l.any (fun n => n.key == k)

mutual

/-- `_merge_single_node(base, override)` from `yaml_generator.py`
(functional rendering of the in-place mutation): every attribute of the
override whose Python truthiness test passes replaces the base attribute
(`default_value` uses `is not None`; `required`, `override_hint`,
`is_override`, `regex_enable` replace unconditionally), and children are
replaced outright under the `replace` strategy, merged when the base has
children, and adopted wholesale otherwise. -/
def mergeSingle (base ov : SchemaNode) : SchemaNode :=
  .mk base.key
      (if ov.multi_type.isEmpty then base.multi_type else ov.multi_type)
      (if ov.item_multi_type.isEmpty then base.item_multi_type else ov.item_multi_type)
      (if ov.description.isEmpty then base.description else ov.description)
      (if ov.default_value.isSome then ov.default_value else base.default_value)
      ov.required
      (if ov.override_strategy.isEmpty then base.override_strategy else ov.override_strategy)
      ov.override_hint
      ov.is_override
      ov.regex_enable
      (if regexTruthy ov.regex then ov.regex else base.regex)
      (if condTruthy ov.condition then ov.condition else base.condition)
      (if ov.override_strategy == replaceStr then ov.children
       else if base.children.isEmpty then ov.children
       else mergeList base.children ov.children)
termination_by (nsize ov, 0, 0)
decreasing_by
  exact Prod.Lex.left _ _ (nsize_children_lt ov)

/-- Merge `ov` into the last node of `l` carrying key `ov.key`
(the element `source_map[override.key]` points at). -/
def updateLastMerge (l : List SchemaNode) (ov : SchemaNode) : List SchemaNode :=
  match l with
  | [] => []
  | x :: xs =>
      if keyMem ov.key xs then x :: updateLastMerge xs ov
      else if x.key == ov.key then mergeSingle x ov :: xs
      else x :: xs
termination_by (nsize ov, 1, l.length)
decreasing_by
  · exact Prod.Lex.right _ (Prod.Lex.right _ (by simp))
  · exact Prod.Lex.right _ (Prod.Lex.left _ _ (by omega))

/-- One iteration of the `for override_raw in override_nodes` loop of
`merge_nodes`: empty-keyed overrides are skipped, keyed overrides are
merged into the matching node, fresh overrides are appended. -/
def mergeOne (acc : List SchemaNode) (ov : SchemaNode) : List SchemaNode :=
  if ov.key.isEmpty then acc
  else if keyMem ov.key acc then updateLastMerge acc ov
  else acc ++ [ov]
termination_by (nsize ov, 2, 0)
decreasing_by
  exact Prod.Lex.right _ (Prod.Lex.left _ _ (by omega))

/-- `merge_nodes(source_nodes, override_nodes)` from `yaml_generator.py`. -/
def mergeList (base : List SchemaNode) (ovs : List SchemaNode) : List SchemaNode :=
  match ovs with
  | [] => base
  | o :: rest => mergeList (mergeOne base o) rest
termination_by (lsize ovs, 0, 0)
decreasing_by
  all_goals exact Prod.Lex.left _ _ (by simp only [lsize]; omega)

end

/-! ### Computation laws of the merger -/

theorem mergeList_nil (base : List SchemaNode) : mergeList base [] = base := by
  simp [mergeList]

theorem mergeList_cons (base : List SchemaNode) (o : SchemaNode) (rest : List SchemaNode) :
    mergeList base (o :: rest) = mergeList (mergeOne base o) rest := by
  simp [mergeList]

theorem mergeList_append (base l₁ l₂ : List SchemaNode) :
    mergeList base (l₁ ++ l₂) = mergeList (mergeList base l₁) l₂ := by
  induction l₁ generalizing base with
  | nil => simp [mergeList_nil]
  | cons o rest ih => simp [mergeList_cons, ih]

theorem mergeList_concat (base l : List SchemaNode) (o : SchemaNode) :
    mergeList base (l ++ [o]) = mergeOne (mergeList base l) o := by
  simp [mergeList_append, mergeList_cons, mergeList_nil]

theorem key_mergeSingle (b ov : SchemaNode) : (mergeSingle b ov).key = b.key := by
  simp [mergeSingle]

theorem mergeOne_empty (acc : List SchemaNode) {ov : SchemaNode} (h : ov.key = []) :
    mergeOne acc ov = acc := by
  simp [mergeOne, h]

theorem mergeOne_mem (acc : List SchemaNode) {ov : SchemaNode} (h : ¬ ov.key = [])
    (hm : keyMem ov.key acc = true) : mergeOne acc ov = updateLastMerge acc ov := by
  simp [mergeOne, h, hm, List.isEmpty_iff]

theorem mergeOne_notMem (acc : List SchemaNode) {ov : SchemaNode} (h : ¬ ov.key = [])
    (hm : keyMem ov.key acc = false) : mergeOne acc ov = acc ++ [ov] := by
  simp [mergeOne, h, hm, List.isEmpty_iff]

theorem updateLastMerge_nil (ov : SchemaNode) : updateLastMerge [] ov = [] := by
  simp [updateLastMerge]

theorem updateLastMerge_cons_mem {x : SchemaNode} {xs : List SchemaNode} {ov : SchemaNode}
    (h : keyMem ov.key xs = true) :
    updateLastMerge (x :: xs) ov = x :: updateLastMerge xs ov := by
  simp [updateLastMerge, h]

theorem updateLastMerge_cons_last {x : SchemaNode} {xs : List SchemaNode} {ov : SchemaNode}
    (h : keyMem ov.key xs = false) (hx : x.key = ov.key) :
    updateLastMerge (x :: xs) ov = mergeSingle x ov :: xs := by
  simp [updateLastMerge, h, hx]

theorem updateLastMerge_cons_other {x : SchemaNode} {xs : List SchemaNode} {ov : SchemaNode}
    (h : keyMem ov.key xs = false) (hx : ¬ x.key = ov.key) :
    updateLastMerge (x :: xs) ov = x :: xs := by
  simp [updateLastMerge, h, hx]

/-! ### Key bookkeeping -/

theorem keyMem_nil (k : Str) : keyMem k [] = false := by simp [keyMem]

theorem keyMem_cons (k : Str) (x : SchemaNode) (xs : List SchemaNode) :
    keyMem k (x :: xs) = (x.key == k || keyMem k xs) := by
  simp [keyMem]

theorem keyMem_append (k : Str) (a b : List SchemaNode) :
    keyMem k (a ++ b) = (keyMem k a || keyMem k b) := by
  simp [keyMem, List.any_append]

theorem map_key_updateLastMerge (l : List SchemaNode) (ov : SchemaNode) :
    (updateLastMerge l ov).map SchemaNode.key = l.map SchemaNode.key := by
  induction l with
  | nil => simp [updateLastMerge_nil]
  | cons x xs ih =>
      by_cases h : keyMem ov.key xs = true
      · simp [updateLastMerge_cons_mem h, ih]
      · rw [Bool.not_eq_true] at h
        by_cases hx : x.key = ov.key
        · simp [updateLastMerge_cons_last h hx, key_mergeSingle]
        · simp [updateLastMerge_cons_other h hx]

theorem keyMem_eq_of_map_key {k : Str} {l l' : List SchemaNode}
    (h : l.map SchemaNode.key = l'.map SchemaNode.key) : keyMem k l = keyMem k l' := by
  have : ∀ m : List SchemaNode, keyMem k m = (m.map SchemaNode.key).any (· == k) := by
    intro m
    induction m with
    | nil => rfl
    | cons a t ih => simp [keyMem] at ih ⊢; rw [ih]
  rw [this, this, h]

theorem keyMem_updateLastMerge (k : Str) (l : List SchemaNode) (ov : SchemaNode) :
    keyMem k (updateLastMerge l ov) = keyMem k l :=
  keyMem_eq_of_map_key (map_key_updateLastMerge l ov)

theorem keyMem_mergeOne_mono {k : Str} {acc : List SchemaNode} (ov : SchemaNode)
    (h : keyMem k acc = true) : keyMem k (mergeOne acc ov) = true := by
  by_cases he : ov.key = []
  · rw [mergeOne_empty acc he]; exact h
  · by_cases hm : keyMem ov.key acc = true
    · rw [mergeOne_mem acc he hm, keyMem_updateLastMerge]; exact h
    · rw [Bool.not_eq_true] at hm
      rw [mergeOne_notMem acc he hm, keyMem_append, h]; rfl

theorem keyMem_mergeOne_self {acc : List SchemaNode} {ov : SchemaNode} (h : ¬ ov.key = []) :
    keyMem ov.key (mergeOne acc ov) = true := by
  by_cases hm : keyMem ov.key acc = true
  · exact keyMem_mergeOne_mono ov hm
  · rw [Bool.not_eq_true] at hm
    rw [mergeOne_notMem acc h hm, keyMem_append, keyMem_cons, keyMem_nil]
    simp

theorem updateLastMerge_not_mem {l : List SchemaNode} {ov : SchemaNode}
    (h : keyMem ov.key l = false) : updateLastMerge l ov = l := by
  induction l with
  | nil => exact updateLastMerge_nil ov
  | cons x xs ih =>
      rw [keyMem_cons] at h
      have hx : ¬ x.key = ov.key := by
        intro he; simp [he] at h
      have hxs : keyMem ov.key xs = false := by
        rcases Bool.or_eq_false_iff.mp h with ⟨_, h2⟩; exact h2
      rw [updateLastMerge_cons_other hxs hx]

theorem updateLastMerge_append_other {A : List SchemaNode} {o ov : SchemaNode}
    (h : ¬ o.key = ov.key) :
    updateLastMerge (A ++ [o]) ov = updateLastMerge A ov ++ [o] := by
  induction A with
  | nil =>
      rw [List.nil_append, updateLastMerge_nil, List.nil_append]
      rw [updateLastMerge_cons_other (keyMem_nil ov.key) h]
  | cons y R ih =>
      have hsingle : keyMem ov.key [o] = false := by
        rw [keyMem_cons, keyMem_nil]
        simp [h]
      by_cases hm : keyMem ov.key R = true
      · have : keyMem ov.key (R ++ [o]) = true := by
          rw [keyMem_append, hm]; rfl
        rw [List.cons_append, updateLastMerge_cons_mem this, ih,
          updateLastMerge_cons_mem hm, List.cons_append]
      · rw [Bool.not_eq_true] at hm
        have hro : keyMem ov.key (R ++ [o]) = false := by
          rw [keyMem_append, hm, hsingle]; rfl
        by_cases hy : y.key = ov.key
        · rw [List.cons_append, updateLastMerge_cons_last hro hy,
            updateLastMerge_cons_last hm hy, List.cons_append]
        · rw [List.cons_append, updateLastMerge_cons_other hro hy,
            updateLastMerge_cons_other hm hy, List.cons_append]

theorem updateLastMerge_append_last {A : List SchemaNode} {x ov : SchemaNode}
    (h : keyMem ov.key A = false) (hx : x.key = ov.key) :
    updateLastMerge (A ++ [x]) ov = A ++ [mergeSingle x ov] := by
  induction A with
  | nil =>
      rw [List.nil_append, List.nil_append]
      rw [updateLastMerge_cons_last (keyMem_nil ov.key) hx]
  | cons y R ih =>
      rw [keyMem_cons] at h
      rcases Bool.or_eq_false_iff.mp h with ⟨hy, hR⟩
      have hy' : ¬ y.key = ov.key := by
        intro he; simp [he] at hy
      have hRx : keyMem ov.key (R ++ [x]) = true := by
        rw [keyMem_append, keyMem_cons, keyMem_nil, hx]
        simp
      rw [List.cons_append, updateLastMerge_cons_mem hRx, ih hR, List.cons_append]

/-! ### The `replace`-free fragment -/

mutual

/-- No node of this tree (at any depth) carries override strategy `replace`. -/
def noReplace : SchemaNode → Bool
  | .mk _ _ _ _ _ _ s _ _ _ _ _ ch => (s != replaceStr) && noReplaceList ch

/-- No node of any tree in the list carries override strategy `replace`. -/
def noReplaceList : List SchemaNode → Bool
  | [] => true
  | n :: rest => noReplace n && noReplaceList rest

end

theorem noReplace_strategy {n : SchemaNode} (h : noReplace n = true) :
    ¬ n.override_strategy = replaceStr := by
  cases n with
  | mk k m i d v r s hh o e rx c ch =>
      simp only [noReplace, Bool.and_eq_true, bne_iff_ne] at h
      simpa using h.1

theorem noReplace_children {n : SchemaNode} (h : noReplace n = true) :
    noReplaceList n.children = true := by
  cases n with
  | mk k m i d v r s hh o e rx c ch =>
      simp only [noReplace, Bool.and_eq_true] at h
      simpa using h.2

theorem noReplaceList_cons {n : SchemaNode} {rest : List SchemaNode} :
    noReplaceList (n :: rest) = true ↔ noReplace n = true ∧ noReplaceList rest = true := by
  simp [noReplaceList]

theorem noReplaceList_append {a b : List SchemaNode} :
    noReplaceList (a ++ b) = true ↔ noReplaceList a = true ∧ noReplaceList b = true := by
  induction a with
  | nil => simp [noReplaceList]
  | cons x xs ih => simp [noReplaceList_cons, ih, and_assoc]

theorem noReplaceList_mem {l : List SchemaNode} (h : noReplaceList l = true)
    {n : SchemaNode} (hn : n ∈ l) : noReplace n = true := by
  induction l with
  | nil => cases hn
  | cons x xs ih =>
      rcases noReplaceList_cons.mp h with ⟨h1, h2⟩
      rcases List.mem_cons.mp hn with he | hm
      · exact he ▸ h1
      · exact ih h2 hm

theorem noReplace_mk_strategy {n : SchemaNode}
    (hs : ¬ n.override_strategy = replaceStr) (hc : noReplaceList n.children = true) :
    noReplace n = true := by
  cases n with
  | mk k m i d v r s hh o e rx c ch =>
      simp only [override_strategy_mk] at hs
      simp only [children_mk] at hc
      simp [noReplace, hs, hc]

/-! ### Length and nonemptiness under merging -/

theorem length_updateLastMerge (l : List SchemaNode) (ov : SchemaNode) :
    (updateLastMerge l ov).length = l.length := by
  have := congrArg List.length (map_key_updateLastMerge l ov)
  simpa using this

theorem length_mergeOne_ge (acc : List SchemaNode) (ov : SchemaNode) :
    acc.length ≤ (mergeOne acc ov).length := by
  by_cases he : ov.key = []
  · rw [mergeOne_empty acc he]
  · by_cases hm : keyMem ov.key acc = true
    · rw [mergeOne_mem acc he hm, length_updateLastMerge]
    · rw [Bool.not_eq_true] at hm
      rw [mergeOne_notMem acc he hm]
      simp

theorem length_mergeList_ge (base ovs : List SchemaNode) :
    base.length ≤ (mergeList base ovs).length := by
  induction ovs generalizing base with
  | nil => rw [mergeList_nil]
  | cons o rest ih =>
      rw [mergeList_cons]
      exact le_trans (length_mergeOne_ge base o) (ih (mergeOne base o))

theorem mergeList_ne_nil {base : List SchemaNode} (h : ¬ base = []) (ovs : List SchemaNode) :
    ¬ mergeList base ovs = [] := by
  intro hc
  have hlen := length_mergeList_ge base ovs
  rw [hc] at hlen
  simp at hlen
  exact h hlen

/-- The conditional ``last truthy override wins'' update rule is associative:
this is the shape of every scalar attribute assignment in
`_merge_single_node` (`if override.attr: base.attr = override.attr`). -/
theorem condOverride_assoc {α : Type} (q : α → Bool) (x y z : α) :
    (if q z = true then (if q y = true then x else y) else z) =
      (if q (if q z = true then y else z) = true then x else (if q z = true then y else z)) := by
  by_cases hz : q z = true
  · simp [hz]
  · simp [hz]

theorem one_le_nsize (n : SchemaNode) : 1 ≤ nsize n := by
  cases n with
  | mk k m i d v r s hh o e rx c ch => simp [nsize]

theorem lsize_cons (o : SchemaNode) (rest : List SchemaNode) :
    lsize (o :: rest) = 1 + nsize o + lsize rest := by
  simp [lsize]

/-- `replace`-freedom is preserved by every layer of the merger
(strong induction on the override-side size). -/
theorem noReplace_preservation : ∀ n : Nat,
    (∀ a b : SchemaNode, nsize b ≤ n → noReplace a = true → noReplace b = true →
      noReplace (mergeSingle a b) = true) ∧
    (∀ (l : List SchemaNode) (ov : SchemaNode), nsize ov ≤ n → noReplaceList l = true →
      noReplace ov = true → noReplaceList (updateLastMerge l ov) = true) ∧
    (∀ (acc : List SchemaNode) (ov : SchemaNode), nsize ov ≤ n → noReplaceList acc = true →
      noReplace ov = true → noReplaceList (mergeOne acc ov) = true) ∧
    (∀ base ovs : List SchemaNode, lsize ovs ≤ n → noReplaceList base = true →
      noReplaceList ovs = true → noReplaceList (mergeList base ovs) = true) := by
  intro n
  induction n using Nat.strong_induction_on with
  | _ n ih =>
    have p1 : ∀ a b : SchemaNode, nsize b ≤ n → noReplace a = true → noReplace b = true →
        noReplace (mergeSingle a b) = true := by
      intro a b hn ha hb
      have hbs := noReplace_strategy hb
      have hbs' : (b.override_strategy == replaceStr) = false := by
        simp [hbs]
      rw [mergeSingle, hbs']
      apply noReplace_mk_strategy
      · simp only [override_strategy_mk]
        by_cases hbe : b.override_strategy.isEmpty
        · simp [hbe, noReplace_strategy ha]
        · simp [hbe, hbs]
      · simp only [children_mk, Bool.false_eq_true, if_false]
        by_cases hae : a.children.isEmpty
        · simp [hae, noReplace_children hb]
        · simp only [hae, if_false]
          have hlt : lsize b.children < n :=
            lt_of_lt_of_le (nsize_children_lt b) hn
          exact (ih (lsize b.children) hlt).2.2.2 a.children b.children le_rfl
            (noReplace_children ha) (noReplace_children hb)
    have p2 : ∀ (l : List SchemaNode) (ov : SchemaNode), nsize ov ≤ n →
        noReplaceList l = true → noReplace ov = true →
        noReplaceList (updateLastMerge l ov) = true := by
      intro l ov hn hl hov
      induction l with
      | nil => simpa [updateLastMerge_nil] using hl
      | cons x xs ihl =>
          rcases noReplaceList_cons.mp hl with ⟨hx, hxs⟩
          by_cases hm : keyMem ov.key xs = true
          · rw [updateLastMerge_cons_mem hm]
            exact noReplaceList_cons.mpr ⟨hx, ihl hxs⟩
          · rw [Bool.not_eq_true] at hm
            by_cases hk : x.key = ov.key
            · rw [updateLastMerge_cons_last hm hk]
              exact noReplaceList_cons.mpr ⟨p1 x ov hn hx hov, hxs⟩
            · rw [updateLastMerge_cons_other hm hk]
              exact hl
    have p3 : ∀ (acc : List SchemaNode) (ov : SchemaNode), nsize ov ≤ n →
        noReplaceList acc = true → noReplace ov = true →
        noReplaceList (mergeOne acc ov) = true := by
      intro acc ov hn hacc hov
      by_cases he : ov.key = []
      · rw [mergeOne_empty acc he]; exact hacc
      · by_cases hm : keyMem ov.key acc = true
        · rw [mergeOne_mem acc he hm]
          exact p2 acc ov hn hacc hov
        · rw [Bool.not_eq_true] at hm
          rw [mergeOne_notMem acc he hm]
          exact noReplaceList_append.mpr ⟨hacc, noReplaceList_cons.mpr ⟨hov, rfl⟩⟩
    refine ⟨p1, p2, p3, ?_⟩
    intro base ovs hn hbase hovs
    match ovs with
    | [] => rw [mergeList_nil]; exact hbase
    | o :: rest =>
        rcases noReplaceList_cons.mp hovs with ⟨ho, hrest⟩
        rw [mergeList_cons]
        have h1 : 1 ≤ nsize o := one_le_nsize o
        rw [lsize_cons] at hn
        have hltrest : lsize rest < n := by omega
        exact (ih (lsize rest) hltrest).2.2.2 (mergeOne base o) rest le_rfl
          (p3 base o (by omega) hbase ho) hrest

/-- `merge_nodes` preserves `replace`-freedom. -/
theorem noReplaceList_mergeList {base ovs : List SchemaNode}
    (hbase : noReplaceList base = true) (hovs : noReplaceList ovs = true) :
    noReplaceList (mergeList base ovs) = true :=
  (noReplace_preservation (lsize ovs)).2.2.2 base ovs le_rfl hbase hovs

/-- `mergeOne` preserves `replace`-freedom. -/
theorem noReplaceList_mergeOne {acc : List SchemaNode} {ov : SchemaNode}
    (hacc : noReplaceList acc = true) (hov : noReplace ov = true) :
    noReplaceList (mergeOne acc ov) = true :=
  (noReplace_preservation (nsize ov)).2.2.1 acc ov le_rfl hacc hov

/-- ``Truthy override wins'' polarity of `condOverride_assoc`
(shape of `default_value`, `regex` and `condition` assignment). -/
theorem condOverride_assoc' {α : Type} (p : α → Bool) (x y z : α) :
    (if p z = true then z else (if p y = true then y else x)) =
      (if p (if p z = true then z else y) = true then (if p z = true then z else y) else x) := by
  by_cases hz : p z = true
  · simp [hz]
  · simp [hz]

theorem lsize_append (a b : List SchemaNode) : lsize (a ++ b) = lsize a + lsize b := by
  induction a with
  | nil => simp [lsize]
  | cons x xs ih => simp [lsize, ih]; omega

section MergeSingleAccessors

variable (a b : SchemaNode)

theorem mergeSingle_key : (mergeSingle a b).key = a.key := key_mergeSingle a b

theorem mergeSingle_multi_type : (mergeSingle a b).multi_type =
    if b.multi_type.isEmpty then a.multi_type else b.multi_type := by
  rw [mergeSingle]; simp

theorem mergeSingle_item_multi_type : (mergeSingle a b).item_multi_type =
    if b.item_multi_type.isEmpty then a.item_multi_type else b.item_multi_type := by
  rw [mergeSingle]; simp

theorem mergeSingle_description : (mergeSingle a b).description =
    if b.description.isEmpty then a.description else b.description := by
  rw [mergeSingle]; simp

theorem mergeSingle_default_value : (mergeSingle a b).default_value =
    if b.default_value.isSome then b.default_value else a.default_value := by
  rw [mergeSingle]; simp

theorem mergeSingle_required : (mergeSingle a b).required = b.required := by
  rw [mergeSingle]; simp

theorem mergeSingle_override_strategy : (mergeSingle a b).override_strategy =
    if b.override_strategy.isEmpty then a.override_strategy else b.override_strategy := by
  rw [mergeSingle]; simp

theorem mergeSingle_override_hint : (mergeSingle a b).override_hint = b.override_hint := by
  rw [mergeSingle]; simp

theorem mergeSingle_is_override : (mergeSingle a b).is_override = b.is_override := by
  rw [mergeSingle]; simp

theorem mergeSingle_regex_enable : (mergeSingle a b).regex_enable = b.regex_enable := by
  rw [mergeSingle]; simp

theorem mergeSingle_regex : (mergeSingle a b).regex =
    if regexTruthy b.regex then b.regex else a.regex := by
  rw [mergeSingle]; simp

theorem mergeSingle_condition : (mergeSingle a b).condition =
    if condTruthy b.condition then b.condition else a.condition := by
  rw [mergeSingle]; simp

theorem mergeSingle_children : (mergeSingle a b).children =
    if b.override_strategy == replaceStr then b.children
    else if a.children.isEmpty then b.children
    else mergeList a.children b.children := by
  rw [mergeSingle]; simp

end MergeSingleAccessors

/-! ### Commutation lemmas for independent merges -/

theorem updateLastMerge_comm {A : List SchemaNode} {c o : SchemaNode}
    (hne : ¬ c.key = o.key) :
    updateLastMerge (updateLastMerge A c) o = updateLastMerge (updateLastMerge A o) c := by
  induction A with
  | nil => simp [updateLastMerge_nil]
  | cons y R ih =>
      by_cases mc : keyMem c.key R = true
      · by_cases mo : keyMem o.key R = true
        · rw [updateLastMerge_cons_mem mc, updateLastMerge_cons_mem mo]
          have hc' : keyMem o.key (updateLastMerge R c) = true := by
            rw [keyMem_updateLastMerge]; exact mo
          have ho' : keyMem c.key (updateLastMerge R o) = true := by
            rw [keyMem_updateLastMerge]; exact mc
          rw [updateLastMerge_cons_mem hc', updateLastMerge_cons_mem ho', ih]
        · rw [Bool.not_eq_true] at mo
          rw [updateLastMerge_cons_mem mc]
          have hmo' : keyMem o.key (updateLastMerge R c) = false := by
            rw [keyMem_updateLastMerge]; exact mo
          by_cases hy : y.key = o.key
          · rw [updateLastMerge_cons_last hmo' hy, updateLastMerge_cons_last mo hy]
            have : ¬ (mergeSingle y o).key = c.key := by
              rw [key_mergeSingle, hy]
              intro hcc; exact hne hcc.symm
            rw [updateLastMerge_cons_mem mc]
          · rw [updateLastMerge_cons_other hmo' hy, updateLastMerge_cons_other mo hy,
              updateLastMerge_cons_mem mc]
      · rw [Bool.not_eq_true] at mc
        by_cases mo : keyMem o.key R = true
        · rw [updateLastMerge_cons_mem mo]
          have hmc' : keyMem c.key (updateLastMerge R o) = false := by
            rw [keyMem_updateLastMerge]; exact mc
          by_cases hy : y.key = c.key
          · rw [updateLastMerge_cons_last mc hy, updateLastMerge_cons_last hmc' hy]
            rw [updateLastMerge_cons_mem mo]
          · rw [updateLastMerge_cons_other mc hy, updateLastMerge_cons_other hmc' hy,
              updateLastMerge_cons_mem mo]
        · rw [Bool.not_eq_true] at mo
          by_cases hyc : y.key = c.key
          · have hyo : ¬ y.key = o.key := by rw [hyc]; exact hne
            rw [updateLastMerge_cons_last mc hyc]
            have : ¬ (mergeSingle y c).key = o.key := by
              rw [key_mergeSingle]; exact hyo
            rw [updateLastMerge_cons_other mo this, updateLastMerge_cons_other mo hyo,
              updateLastMerge_cons_last mc hyc]
          · by_cases hyo : y.key = o.key
            · rw [updateLastMerge_cons_other mc hyc, updateLastMerge_cons_last mo hyo]
              have : ¬ (mergeSingle y o).key = c.key := by
                rw [key_mergeSingle]; exact hyc
              rw [updateLastMerge_cons_other mc this]
            · rw [updateLastMerge_cons_other mc hyc, updateLastMerge_cons_other mo hyo,
                updateLastMerge_cons_other mc hyc]

theorem mergeOne_comm {A : List SchemaNode} {c o : SchemaNode}
    (hck : ¬ c.key = []) (hmem : keyMem c.key A = true) (hne : ¬ o.key = c.key) :
    mergeOne (mergeOne A c) o = mergeOne (mergeOne A o) c := by
  by_cases hok : o.key = []
  · rw [mergeOne_empty (mergeOne A c) hok, mergeOne_empty A hok]
  · rw [mergeOne_mem A hck hmem]
    by_cases mo : keyMem o.key A = true
    · rw [mergeOne_mem A hok mo]
      have h1 : keyMem o.key (updateLastMerge A c) = true := by
        rw [keyMem_updateLastMerge]; exact mo
      have h2 : keyMem c.key (updateLastMerge A o) = true := by
        rw [keyMem_updateLastMerge]; exact hmem
      rw [mergeOne_mem _ hok h1, mergeOne_mem _ hck h2]
      exact updateLastMerge_comm (fun h => hne h.symm)
    · rw [Bool.not_eq_true] at mo
      rw [mergeOne_notMem A hok mo]
      have h1 : keyMem o.key (updateLastMerge A c) = false := by
        rw [keyMem_updateLastMerge]; exact mo
      have h2 : keyMem c.key (A ++ [o]) = true := by
        rw [keyMem_append, hmem]; rfl
      rw [mergeOne_notMem _ hok h1, mergeOne_mem _ hck h2,
        updateLastMerge_append_other hne]

theorem mergeList_mergeOne_swap {X : List SchemaNode} {c : SchemaNode}
    (hck : ¬ c.key = []) :
    ∀ A : List SchemaNode, keyMem c.key A = true → keyMem c.key X = false →
      mergeList (mergeOne A c) X = mergeOne (mergeList A X) c := by
  induction X with
  | nil =>
      intro A _ _
      rw [mergeList_nil, mergeList_nil]
  | cons o R ih =>
      intro A hA hX
      rw [keyMem_cons] at hX
      rcases Bool.or_eq_false_iff.mp hX with ⟨ho, hR⟩
      have hne : ¬ o.key = c.key := by
        intro he; simp [he] at ho
      rw [mergeList_cons, mergeOne_comm hck hA hne, mergeList_cons]
      exact ih (mergeOne A o) (keyMem_mergeOne_mono o hA) hR

theorem updateLastMerge_compose {A : List SchemaNode} {x c : SchemaNode}
    (hk : x.key = c.key)
    (hNA : ∀ y ∈ A, mergeSingle (mergeSingle y x) c = mergeSingle y (mergeSingle x c)) :
    updateLastMerge (updateLastMerge A x) c = updateLastMerge A (mergeSingle x c) := by
  induction A with
  | nil => rw [updateLastMerge_nil, updateLastMerge_nil, updateLastMerge_nil]
  | cons y R ih =>
      have hNAy : mergeSingle (mergeSingle y x) c = mergeSingle y (mergeSingle x c) :=
        hNA y (List.mem_cons_self y R)
      have hNAR : ∀ z ∈ R, mergeSingle (mergeSingle z x) c = mergeSingle z (mergeSingle x c) :=
        fun z hz => hNA z (List.mem_cons_of_mem y hz)
      have hksc : (mergeSingle x c).key = x.key := key_mergeSingle x c
      by_cases m : keyMem c.key R = true
      · have mx : keyMem x.key R = true := by rw [hk]; exact m
        have msc : keyMem (mergeSingle x c).key R = true := by rw [hksc]; exact mx
        rw [updateLastMerge_cons_mem mx]
        have : keyMem c.key (updateLastMerge R x) = true := by
          rw [keyMem_updateLastMerge]; exact m
        rw [updateLastMerge_cons_mem this, updateLastMerge_cons_mem msc, ih hNAR]
      · rw [Bool.not_eq_true] at m
        have mx : keyMem x.key R = false := by rw [hk]; exact m
        have msc : keyMem (mergeSingle x c).key R = false := by rw [hksc]; exact mx
        by_cases hy : y.key = x.key
        · rw [updateLastMerge_cons_last mx hy]
          have hyc : (mergeSingle y x).key = c.key := by
            rw [key_mergeSingle, hy, hk]
          have : keyMem c.key R = false := m
          rw [updateLastMerge_cons_last this hyc]
          have hysc : y.key = (mergeSingle x c).key := by rw [hksc, hy]
          rw [updateLastMerge_cons_last msc hysc, hNAy]
        · rw [updateLastMerge_cons_other mx hy]
          have hyc : ¬ y.key = c.key := by rw [← hk]; exact hy
          rw [updateLastMerge_cons_other m hyc]
          have hysc : ¬ y.key = (mergeSingle x c).key := by rw [hksc]; exact hy
          rw [updateLastMerge_cons_other msc hysc]

theorem mergeOne_mergeSingle_step {A : List SchemaNode} {x c : SchemaNode}
    (hk : x.key = c.key) (hck : ¬ c.key = [])
    (hNA : ∀ y ∈ A, mergeSingle (mergeSingle y x) c = mergeSingle y (mergeSingle x c)) :
    mergeOne A (mergeSingle x c) = mergeOne (mergeOne A x) c := by
  have hxk : ¬ x.key = [] := by rw [hk]; exact hck
  have hksc : (mergeSingle x c).key = x.key := key_mergeSingle x c
  have hscne : ¬ (mergeSingle x c).key = [] := by rw [hksc]; exact hxk
  by_cases hm : keyMem c.key A = true
  · have hmx : keyMem x.key A = true := by rw [hk]; exact hm
    have hmsc : keyMem (mergeSingle x c).key A = true := by rw [hksc]; exact hmx
    rw [mergeOne_mem A hscne hmsc, mergeOne_mem A hxk hmx]
    have : keyMem c.key (updateLastMerge A x) = true := by
      rw [keyMem_updateLastMerge]; exact hm
    rw [mergeOne_mem _ hck this]
    have := updateLastMerge_compose hk hNA
    rw [this]
  · rw [Bool.not_eq_true] at hm
    have hmx : keyMem x.key A = false := by rw [hk]; exact hm
    have hmsc : keyMem (mergeSingle x c).key A = false := by rw [hksc]; exact hmx
    rw [mergeOne_notMem A hscne hmsc, mergeOne_notMem A hxk hmx]
    have h2 : keyMem c.key (A ++ [x]) = true := by
      rw [keyMem_append, keyMem_cons, keyMem_nil, hk]
      simp
    rw [mergeOne_mem _ hck h2, updateLastMerge_append_last hm hk]

/-- Associativity of the `replace`-free merger: node-level associativity,
commutation of a single override past `mergeList`, and list-level
associativity, proved together by strong induction on the size of the
right-hand operand. -/
theorem merge_assoc_grand : ∀ n : Nat,
    (∀ a b c : SchemaNode, nsize c ≤ n → noReplace a = true → noReplace b = true →
      noReplace c = true →
      mergeSingle (mergeSingle a b) c = mergeSingle a (mergeSingle b c)) ∧
    (∀ c : SchemaNode, nsize c ≤ n → noReplace c = true →
      ∀ X : List SchemaNode, noReplaceList X = true →
      ∀ A : List SchemaNode, noReplaceList A = true →
      mergeList A (mergeOne X c) = mergeOne (mergeList A X) c) ∧
    (∀ A B C : List SchemaNode, lsize C ≤ n → noReplaceList A = true →
      noReplaceList B = true → noReplaceList C = true →
      mergeList A (B ++ C) = mergeList A (mergeList B C)) := by
  intro n
  induction n using Nat.strong_induction_on with
  | _ n ih =>
    have q1 : ∀ a b c : SchemaNode, nsize c ≤ n → noReplace a = true → noReplace b = true →
        noReplace c = true →
        mergeSingle (mergeSingle a b) c = mergeSingle a (mergeSingle b c) := by
      intro a b c hn ha hb hc
      have hcs := noReplace_strategy hc
      have hbs := noReplace_strategy hb
      have hbc_strat : ¬ (mergeSingle b c).override_strategy = replaceStr := by
        rw [mergeSingle_override_strategy]
        by_cases h : c.override_strategy.isEmpty <;> simp [h, hbs, hcs]
      apply SchemaNode.ext
      · simp [mergeSingle_key]
      · simp only [mergeSingle_multi_type]
        by_cases hz : c.multi_type.isEmpty <;> by_cases hy : b.multi_type.isEmpty <;>
          simp [hz, hy]
      · simp only [mergeSingle_item_multi_type]
        by_cases hz : c.item_multi_type.isEmpty <;>
          by_cases hy : b.item_multi_type.isEmpty <;> simp [hz, hy]
      · simp only [mergeSingle_description]
        by_cases hz : c.description.isEmpty <;> by_cases hy : b.description.isEmpty <;>
          simp [hz, hy]
      · simp only [mergeSingle_default_value]
        by_cases hz : c.default_value.isSome <;> by_cases hy : b.default_value.isSome <;>
          simp [hz, hy]
      · simp [mergeSingle_required]
      · simp only [mergeSingle_override_strategy]
        by_cases hz : c.override_strategy.isEmpty <;>
          by_cases hy : b.override_strategy.isEmpty <;> simp [hz, hy]
      · simp [mergeSingle_override_hint]
      · simp [mergeSingle_is_override]
      · simp [mergeSingle_regex_enable]
      · simp only [mergeSingle_regex]
        by_cases hz : regexTruthy c.regex <;> by_cases hy : regexTruthy b.regex <;>
          simp [hz, hy]
      · simp only [mergeSingle_condition]
        by_cases hz : condTruthy c.condition <;> by_cases hy : condTruthy b.condition <;>
          simp [hz, hy]
      · rw [mergeSingle_children (mergeSingle a b) c, mergeSingle_children a (mergeSingle b c),
          mergeSingle_children a b, mergeSingle_children b c]
        have hcseq : (c.override_strategy == replaceStr) = false := by
          simp [hcs]
        have hbseq : (b.override_strategy == replaceStr) = false := by
          simp [hbs]
        have hbcseq : ((mergeSingle b c).override_strategy == replaceStr) = false := by
          simp [hbc_strat]
        rw [hcseq, hbseq, hbcseq]
        simp only [Bool.false_eq_true, if_false]
        by_cases hae : a.children = []
        · have h1 : a.children.isEmpty = true := by simp [hae]
          have e1 : (if a.children.isEmpty = true then b.children
              else mergeList a.children b.children) = b.children := if_pos h1
          rw [e1, if_pos h1]
        · have h1 : ¬ a.children.isEmpty = true := fun h => hae (List.isEmpty_iff.mp h)
          have e1 : (if a.children.isEmpty = true then b.children
              else mergeList a.children b.children) = mergeList a.children b.children :=
            if_neg h1
          rw [e1]
          by_cases hbe : b.children = []
          · rw [hbe, mergeList_nil, if_neg h1, if_neg h1]
            simp
          · have h2 : ¬ b.children.isEmpty = true := fun h => hbe (List.isEmpty_iff.mp h)
            have e2 : (if b.children.isEmpty = true then c.children
                else mergeList b.children c.children) = mergeList b.children c.children :=
              if_neg h2
            have h3 : ¬ (mergeList a.children b.children).isEmpty = true :=
              fun h => (mergeList_ne_nil hae b.children) (List.isEmpty_iff.mp h)
            rw [e2, if_neg h3, if_neg h1]
            have hlt : lsize c.children < n := lt_of_lt_of_le (nsize_children_lt c) hn
            have hAT3 := (ih (lsize c.children) hlt).2.2 a.children b.children c.children
              le_rfl (noReplace_children ha) (noReplace_children hb) (noReplace_children hc)
            rw [← mergeList_append, hAT3]
    have q2 : ∀ c : SchemaNode, nsize c ≤ n → noReplace c = true →
        ∀ X : List SchemaNode, noReplaceList X = true →
        ∀ A : List SchemaNode, noReplaceList A = true →
        mergeList A (mergeOne X c) = mergeOne (mergeList A X) c := by
      intro c hn hc
      by_cases hck : c.key = []
      · intro X _ A _
        rw [mergeOne_empty X hck, mergeOne_empty (mergeList A X) hck]
      · intro X
        induction X with
        | nil =>
            intro _ A hA
            have h0 : mergeOne ([] : List SchemaNode) c = [c] := by
              rw [mergeOne_notMem [] hck (keyMem_nil c.key)]; rfl
            rw [h0, mergeList_cons, mergeList_nil, mergeList_nil]
        | cons x X' ihX =>
            intro hX A hA
            rcases noReplaceList_cons.mp hX with ⟨hx, hX'⟩
            by_cases hm : keyMem c.key (x :: X') = true
            · by_cases hm' : keyMem c.key X' = true
              · rw [mergeOne_mem _ hck hm, updateLastMerge_cons_mem hm',
                  ← mergeOne_mem X' hck hm', mergeList_cons A x, mergeList_cons A x]
                exact ihX hX' (mergeOne A x) (noReplaceList_mergeOne hA hx)
              · rw [Bool.not_eq_true] at hm'
                have hxk : x.key = c.key := by
                  rw [keyMem_cons, hm'] at hm
                  simpa using hm
                have hxe : ¬ x.key = [] := by rw [hxk]; exact hck
                rw [mergeOne_mem _ hck hm, updateLastMerge_cons_last hm' hxk,
                  mergeList_cons A (mergeSingle x c) X']
                have hstep := mergeOne_mergeSingle_step hxk hck
                  (fun y hy => q1 y x c hn (noReplaceList_mem hA hy) hx hc)
                rw [hstep]
                have hmem : keyMem c.key (mergeOne A x) = true := by
                  rw [← hxk]; exact keyMem_mergeOne_self hxe
                rw [mergeList_mergeOne_swap hck (mergeOne A x) hmem hm',
                  mergeList_cons A x X']
            · rw [Bool.not_eq_true] at hm
              rw [mergeOne_notMem _ hck hm, mergeList_concat]
    refine ⟨q1, q2, ?_⟩
    intro A B C hn hA hB hC
    rcases List.eq_nil_or_concat C with rfl | ⟨C', c, rfl⟩
    · rw [List.append_nil, mergeList_nil]
    · rw [List.concat_eq_append] at *
      rcases noReplaceList_append.mp hC with ⟨hC', hc1⟩
      have hc : noReplace c = true := (noReplaceList_cons.mp hc1).1
      rw [← List.append_assoc, mergeList_concat, mergeList_concat]
      have hsz : lsize C' < n ∧ nsize c < n := by
        rw [lsize_append, lsize_cons] at hn
        have := one_le_nsize c
        constructor <;> omega
      have hAT3 := (ih (lsize C') hsz.1).2.2 A B C' le_rfl hA hB hC'
      have hAT2 := (ih (nsize c) hsz.2).2.1 c le_rfl hc (mergeList B C')
        (noReplaceList_mergeList hB hC') A hA
      rw [hAT2, ← hAT3]

/-! ### Orchestrator configuration (`AppConfig`, `ScenarioConfig`, triggers) -/

/-- `TriggerSource` enum of `yaml_generator.py`. -/
inductive TriggerSource where
  | user
  | default
  | env
deriving DecidableEq

/-- `TriggerLogic` enum of `yaml_generator.py`. -/
inductive TriggerLogic where
  | and
  | or
deriving DecidableEq

/-- `EnvVarDef` dataclass. -/
structure EnvVarDef where
  key : Str
  description : Str
deriving DecidableEq

/-- `TriggerCondition` dataclass. -/
structure TriggerCondition where
  key : Str
  regex : Str
deriving DecidableEq

/-- `ScenarioTrigger` dataclass. -/
structure ScenarioTrigger where
  source : TriggerSource
  logic : TriggerLogic
  conditions : List TriggerCondition
deriving DecidableEq

/-- `ScenarioConfig` dataclass (the `config` back-pointer to the raw dict is
omitted: it is never consulted by the functions under verification). -/
structure ScenarioConfig where
  value : Str
  path : Str
  trigger : ScenarioTrigger
  required_env_vars : List EnvVarDef
  priority : Int
deriving DecidableEq

/-- `AppConfig` dataclass (without the unconsulted `raw_config`). -/
structure AppConfig where
  override_hint_style : Str
  scenario_env_key : Str
  top_level_spacing : Int
  default_env_vars : List EnvVarDef
  scenarios : List ScenarioConfig
deriving DecidableEq

/-- Environment maps (`Dict[str, str]`), as association lists; the first
binding of a key wins, matching dict semantics for distinct keys. -/
abbrev Env := List (Str × Str)

/-- `env.get(k)` — `None` when the key is absent. -/
def envGet? (env : Env) (k : Str) : Option Str :=
  (env.find? (fun p => p.1 == k)).map Prod.snd

/-- `env.get(k, d)`. -/
def envGetD (env : Env) (k : Str) (d : Str) : Str :=
  (envGet? env k).getD d

/-- `k in env`. -/
def envHasKey (env : Env) (k : Str) : Bool :=
  env.any (fun p => p.1 == k)

/-- The per-scenario activation test in the loop body of
`determine_active_scenarios`.  `rs` is the oracle for `re.search` on
user-supplied condition regexes. -/
def triggerActive (rs : Str → Str → Bool) (cfg : AppConfig) (env : Env)
    (sc : ScenarioConfig) : Bool :=
  match sc.trigger.source with
  | .default => true
  | .user => envGet? env cfg.scenario_env_key == some sc.value
  | .env =>
      if sc.trigger.conditions.isEmpty then false
      else
        let results := sc.trigger.conditions.map
          (fun c => rs c.regex (envGetD env c.key []))
        match sc.trigger.logic with
        | .and => results.all (fun x => x)
        | .or => results.any (fun x => x)

/-- The in-place `sc.priority = 9999` mutation applied to activated
`default`-source scenarios before they are appended. -/
def reassignPriority (sc : ScenarioConfig) : ScenarioConfig :=
  if sc.trigger.source = .default then { sc with priority := 9999 } else sc

/-- Descending-priority comparison used by the reverse sort. -/
def prioDesc : ScenarioConfig → ScenarioConfig → Prop :=
  fun a b => b.priority ≤ a.priority

instance : DecidableRel prioDesc := fun a b => Int.decLe _ _

instance : IsTotal ScenarioConfig prioDesc :=
  ⟨fun a b => le_total b.priority a.priority⟩

instance : IsTrans ScenarioConfig prioDesc :=
  ⟨fun _ _ _ h1 h2 => le_trans h2 h1⟩

/-- `determine_active_scenarios(app_config, env)` from `yaml_generator.py`:
the activation loop followed by the stable descending-priority sort
(`list.sort` is stable; a stable insertion sort produces the same list). -/
def determine_active_scenarios (rs : Str → Str → Bool) (cfg : AppConfig)
    (env : Env) : List ScenarioConfig :=
  let active := cfg.scenarios.foldl
    (fun acc sc =>
      if triggerActive rs cfg env sc then acc ++ [reassignPriority sc] else acc) []
  List.insertionSort prioDesc active

/-! ### Required-environment-variable validation -/

/-- The `missing` list accumulated by `validate_required_env_vars`
before deduplication: empty-keyed definitions are skipped
(`if ev.key and ev.key not in env`). -/
def missingEnvKeys (cfg : AppConfig) (active : List ScenarioConfig) (env : Env) :
    List Str :=
  (cfg.default_env_vars.filter
      (fun ev => !ev.key.isEmpty && !envHasKey env ev.key)).map EnvVarDef.key
    ++ active.flatMap (fun sc =>
      (sc.required_env_vars.filter
          (fun ev => !ev.key.isEmpty && !envHasKey env ev.key)).map EnvVarDef.key)

/-- `", ".join(l)`. -/
def joinSep (sep : Str) : List Str → Str
  | [] => []
  | [x] => x
  | x :: y :: rest => x ++ sep ++ joinSep sep (y :: rest)

/-- The fixed prefix of the error message. -/
def missingMsgPrefix : Str := "Missing required environment variables: ".data

/-- `validate_required_env_vars(app_config, active_scenarios, env)`:
returns `some message` when a `ConfigGeneratorError` is raised and `none`
otherwise.  Python builds the message from `list(set(missing))`, whose
element order is unspecified; the embedding deduplicates with
`List.dedup` — the properties under verification (whether an error occurs,
and which names the message mentions) are order-independent. -/
def validate_required_env_vars (cfg : AppConfig) (active : List ScenarioConfig)
    (env : Env) : Option Str :=
  let missing := (missingEnvKeys cfg active env).dedup
  if missing.isEmpty then none
  else some (missingMsgPrefix ++ joinSep (", ".data) missing)

/-! ### File collection and destination planning -/

/-- Source-file type recorded by `collect_scenario_files`. -/
inductive FType where
  | json
  | raw
deriving DecidableEq

/-- `os.path.basename`: the part after the last slash. -/
def basenameOf (rel : Str) : Str :=
  (rel.reverse.takeWhile (fun c => !(c == '/'))).reverse

/-- `.ini.json` (9 characters). -/
def iniJsonSuffix : Str := ".ini.json".data

/-- `.yml.json` (9 characters; only its last 5, `.json`, are stripped). -/
def ymlJsonSuffix : Str := ".yml.json".data

/-- The per-file body of the `collect_scenario_files` walk: `none` for
skipped dotfiles, otherwise the destination relative path and type.
The basename `f` carries the `startswith`/`endswith` tests, the
relative path `rel` is what the suffix is stripped from. -/
def collectEntry (rel : Str) : Option (Str × FType) :=
  let f := basenameOf rel
  if f.head? == some '.' then none
  else if iniJsonSuffix.isSuffixOf f then some (rel.take (rel.length - 9), .json)
  else if ymlJsonSuffix.isSuffixOf f then some (rel.take (rel.length - 5), .json)
  else some (rel, .raw)

/-- One record of `file_map[out_rel]`. -/
structure SourceRec where
  path : Str
  ftype : FType
  scenario : Str
deriving DecidableEq

/-- One step of the `for i, s in enumerate(sources)` scan computing
`last_raw_index`: the pair carries (best index so far, current index). -/
def lastRawStep (p : Int × Int) (s : SourceRec) : Int × Int :=
  (if s.ftype == FType.raw then p.2 else p.1, p.2 + 1)

/-- `last_raw_index`: index of the last `raw` source, `-1` if none. -/
def lastRawIndex (sources : List SourceRec) : Int :=
  (sources.foldl lastRawStep (-1, 0)).1

/-- What `generate_output_files` decides to do for one destination. -/
inductive DestAction where
  | conflictError
  | rawCopy (src : Option SourceRec)
  | schemaGen (sources : List SourceRec)
deriving DecidableEq

/-- The per-destination branch of `generate_output_files`: conflict error
(and skip) when the last raw source is not in final position, raw copy when
the final source is raw, schema merge otherwise. -/
def planDestination (sources : List SourceRec) : DestAction :=
  let lri := lastRawIndex sources
  if lri ≠ -1 ∧ lri < (sources.length : Int) - 1 then .conflictError
  else if lri = (sources.length : Int) - 1 then .rawCopy sources.getLast?
  else .schemaGen sources

/-- `str.replace(pat, rep)`: left-to-right, non-overlapping, all
occurrences (callers never pass an empty pattern). -/
def replaceAll (s pat rep : Str) : Str :=
  match s with
  | [] => []
  | c :: rest =>
      if h : ¬ pat = [] ∧ pat.isPrefixOf (c :: rest) then
        rep ++ replaceAll ((c :: rest).drop pat.length) pat rep
      else c :: replaceAll rest pat rep
termination_by s.length
decreasing_by
  · have hlen : 1 ≤ pat.length := by
      cases pat with
      | nil => exact absurd rfl h.1
      | cons a l => simp
    simp [List.length_drop]
    omega
  · simp

/-- `resolve_path_vars(path_template, env)` (the unresolved-placeholder
warning is a print and is not modelled). -/
def resolve_path_vars (path : Str) (env : Env) : Str :=
  env.foldl
    (fun p kv =>
      let placeholder : Str := Char.ofNat 123 :: (kv.1 ++ [Char.ofNat 125])
      if decide (placeholder <:+: p) then replaceAll p placeholder kv.2 else p)
    path

/-- The destination loop of `generate_output_files`: every destination of
the file map is processed (errors only skip the current one), yielding its
resolved output path and planned action. -/
def generate_output_files (fm : List (Str × List SourceRec)) (env : Env) :
    List (Str × DestAction) :=
  fm.map (fun de => (resolve_path_vars de.1 env, planDestination de.2))

/-! ### Filesystem effects of `save_file` -/

/-- The on-disk state visible to the generator: path ↦ contents. -/
abbrev FS := List (Str × Str)

/-- `os.path.exists` / reading back a file. -/
def fsLookup (fs : FS) (p : Str) : Option Str :=
  (fs.find? (fun e => e.1 == p)).map Prod.snd

/-- `save_file(path, content)`: refuses to overwrite, returning the new
state and whether the already-exists warning fired. -/
def save_file (fs : FS) (path content : Str) : FS × Bool :=
  if (fsLookup fs path).isSome then (fs, true)
  else (fs ++ [(path, content)], false)

/-- All writes a generation run performs, in order, are `save_file` calls. -/
def runSaves (fs : FS) (writes : List (Str × Str)) : FS :=
  writes.foldl (fun f w => (save_file f w.1 w.2).1) fs

/-! ### Node value resolution -/

/-- `resolve_node_value(node)`: `default_value`, falling back to `regex`
only when `default_value` is `None`. -/
def resolve_node_value (n : SchemaNode) : Option Val :=
  match n.default_value with
  | some v => some v
  | none => n.regex.map Val.str

/-! ### The smart scalar quoters -/

/-- ASCII lowercasing (model of the IGNORECASE flag on the fixed
`true|false|yes|no|on|off` alternatives). -/
def asciiLower (c : Char) : Char :=
  if 'A' ≤ c ∧ c ≤ 'Z' then Char.ofNat (c.toNat + 32) else c

/-- The boolean-like words of the quoting regex. -/
def boolWords : List Str :=
  ["true".data, "false".data, "yes".data, "no".data, "on".data, "off".data]

/-- Case-insensitive equality with one of the six words. -/
def ciWord (s : Str) : Bool :=
  boolWords.any (fun w => s.map asciiLower == w)

/-- The anchored bool-word regex match: Python's dollar anchor also matches
just before one final newline. -/
def matchBoolWord (s : Str) : Bool :=
  ciWord s ||
    (match s.reverse with
     | '\n' :: t => ciWord t.reverse
     | _ => false)

/-- ASCII digit. -/
def isPyDigit (c : Char) : Bool := '0' ≤ c && c ≤ '9'

/-- The anchored digits-and-dots regex match, with the same
final-newline rule. -/
def matchNumDots (s : Str) : Bool :=
  (!s.isEmpty && s.all (fun c => isPyDigit c || c == '.')) ||
    (match s.reverse with
     | '\n' :: t => !t.isEmpty && t.all (fun c => isPyDigit c || c == '.')
     | _ => false)

/-- ASCII word character. -/
def isWordChar (c : Char) : Bool :=
  ('a' ≤ c && c ≤ 'z') || ('A' ≤ c && c ≤ 'Z') || isPyDigit c || c == '_'

/-- The environment-substitution search of `_format_yaml_scalar_string`:
a dollar sign, an optional opening brace, then at least one word
character, anywhere in the string. -/
def hasEnvSub : Str → Bool
  | [] => false
  | '$' :: rest =>
      (match rest with
       | '\x7b' :: c :: _ => isWordChar c
       | c :: _ => isWordChar c
       | [] => false) || hasEnvSub rest
  | _ :: rest => hasEnvSub rest

/-- Escaping of embedded double quotes: each one is preceded
by a backslash. -/
def escapeQuotes (s : Str) : Str :=
  s.foldr (fun c acc => if c == '"' then '\\' :: '"' :: acc else c :: acc) []

/-- The dangerous character set of `_format_yaml_scalar_string`
(colon, hash, brackets, braces, slash, pipe, space, bang). -/
def dangerousScalarChars : Str :=
  [':', '#', '[', ']', '\x7b', '\x7d', '/', '|', ' ', '!']

/-- `_format_yaml_scalar_string(value)` applied to a string value. -/
def _format_yaml_scalar_string (s : Str) : Str :=
  if (s.head? == some '"' && s.getLast? == some '"')
      || (s.head? == some '\'' && s.getLast? == some '\'') then s
  else
    let needs_quotes := s.isEmpty || matchBoolWord s || matchNumDots s
      || s.any (fun c => dangerousScalarChars.contains c) || hasEnvSub s
    if needs_quotes then '"' :: (escapeQuotes s ++ ['"'])
    else s

/-- Python whitespace (the characters `str.strip` removes). -/
def pyIsSpace (c : Char) : Bool :=
  c == ' ' || c == '\t' || c == '\n' || c == '\r' || c == '\x0b' || c == '\x0c'

/-- `restricted_start` tuple of `format_smart_quoted_string`
(the last entry is the backquote character). -/
def restrictedStart : Str :=
  ['"', '\'', '*', '&', '!', '?', '-', '<', '>', '%', '@', Char.ofNat 96]

/-- `dangerous_chars` tuple of `format_smart_quoted_string`. -/
def dangerousSmartChars : Str :=
  ['#', ':', '\x7b', '\x7d', '[', ']', ',']

/-- `format_smart_quoted_string(data)` applied to a string value.
`yamlDumpPipe` is the oracle for the external YAML block-scalar dump
taken on the multiline branch. -/
def format_smart_quoted_string (yamlDumpPipe : Str → Str) (s : Str) : Str :=
  if s.isEmpty || s.all pyIsSpace then '"' :: (s ++ ['"'])
  else if matchBoolWord s then s
  else if s.contains '\n' then yamlDumpPipe s
  else
    let needs_quotes :=
      (match s.head? with
       | some c => restrictedStart.contains c
       | none => false)
      || s.head? == some ' ' || s.getLast? == some ' '
      || s.any (fun c => dangerousSmartChars.contains c)
    if needs_quotes then
      if !(s.head? == some '"' && s.getLast? == some '"') then '"' :: (s ++ ['"'])
      else s
    else s

/-! ### Specification-side predicates (from the claim wording) -/

/-- The union of required-variable names the specification speaks about:
`AppConfig.default_env_vars` plus every active scenario's
`required_env_vars`. -/
def unionEnvVarKeys (cfg : AppConfig) (active : List ScenarioConfig) : List Str :=
  cfg.default_env_vars.map EnvVarDef.key
    ++ active.flatMap (fun sc => sc.required_env_vars.map EnvVarDef.key)

/-- The activation predicate exactly as claim C1 words it: `default` always
fires, `user` fires on an exact environment match, and `env` fires iff the
regex results of its conditions combined under its `and`/`or` logic succeed
(so an `and` over an empty condition list succeeds vacuously). -/
def firesClaimC1 (rs : Str → Str → Bool) (cfg : AppConfig) (env : Env)
    (sc : ScenarioConfig) : Bool :=
  match sc.trigger.source with
  | .default => true
  | .user => envGet? env cfg.scenario_env_key == some sc.value
  | .env =>
      match sc.trigger.logic with
      | .and => sc.trigger.conditions.all (fun c => rs c.regex (envGetD env c.key []))
      | .or => sc.trigger.conditions.any (fun c => rs c.regex (envGetD env c.key []))

/-- The amended activation predicate: as `firesClaimC1`, except that an
`env`-source scenario with an empty condition list never fires. -/
def firesAmendedC1 (rs : Str → Str → Bool) (cfg : AppConfig) (env : Env)
    (sc : ScenarioConfig) : Bool :=
  match sc.trigger.source with
  | .default => true
  | .user => envGet? env cfg.scenario_env_key == some sc.value
  | .env =>
      !sc.trigger.conditions.isEmpty &&
        (match sc.trigger.logic with
         | .and => sc.trigger.conditions.all (fun c => rs c.regex (envGetD env c.key []))
         | .or => sc.trigger.conditions.any (fun c => rs c.regex (envGetD env c.key [])))

/-! ### Concrete fixtures for witnesses and counterexamples -/

/-- A plain schema node with key `a`. -/
def fixN1 : SchemaNode :=
  .mk "a".data ["string".data] [] [] none true "merge".data false false false none none []

/-- A schema node with key `a` overriding the default value. -/
def fixN2 : SchemaNode :=
  .mk "a".data [] [] [] (some (.num 5)) true "merge".data false false false none none []

/-- A schema node with key `b`. -/
def fixN3 : SchemaNode :=
  .mk "b".data [] [] [] (some (.str "x".data)) false "merge".data false false false none none []

/-- An override node whose key is the empty string. -/
def fixEmptyKey : SchemaNode :=
  .mk [] [] [] [] (some (.num 1)) true "merge".data false false false none none []

/-- A node whose `default_value` is the empty string while `regex` is set. -/
def fixEmptyDefault : SchemaNode :=
  .mk "k".data ["string".data] [] [] (some (.str [])) true "merge".data false false false
    (some "R".data) none []

/-- A node with no `default_value` and a `regex` placeholder. -/
def fixRegexOnly : SchemaNode :=
  .mk "k".data ["string".data] [] [] none true "merge".data false false false
    (some "R".data) none []

/-! ### Helper lemmas for the environment-variable claims -/

theorem envHasKey_of_get {env : Env} {k v : Str} (h : envGet? env k = some v) :
    envHasKey env k = true := by
  rw [envGet?] at h
  rcases Option.map_eq_some'.mp h with ⟨e, he, _⟩
  rw [envHasKey, List.any_eq_true]
  have hp := List.find?_some he
  exact ⟨e, List.mem_of_find?_eq_some he, hp⟩

theorem mem_missingEnvKeys {cfg : AppConfig} {active : List ScenarioConfig} {env : Env}
    {k : Str} :
    k ∈ missingEnvKeys cfg active env ↔
      k ∈ unionEnvVarKeys cfg active ∧ ¬ k = [] ∧ envHasKey env k = false := by
  simp only [missingEnvKeys, unionEnvVarKeys, List.mem_append, List.mem_map,
    List.mem_filter, List.mem_flatMap, Bool.and_eq_true, Bool.not_eq_true']
  constructor
  · rintro (⟨ev, ⟨hev, hkey, hmiss⟩, rfl⟩ | ⟨sc, hsc, ev, ⟨hev, hkey, hmiss⟩, rfl⟩)
    · refine ⟨Or.inl ⟨ev, hev, rfl⟩, ?_, hmiss⟩
      intro h
      rw [h] at hkey
      simp at hkey
    · refine ⟨Or.inr ⟨sc, hsc, ev, hev, rfl⟩, ?_, hmiss⟩
      intro h
      rw [h] at hkey
      simp at hkey
  · rintro ⟨⟨ev, hev, rfl⟩ | ⟨sc, hsc, ev, hev, rfl⟩, hne, hmiss⟩
    · exact Or.inl ⟨ev, ⟨hev,
        Bool.eq_false_iff.mpr (fun hh => hne (List.isEmpty_iff.mp hh)), hmiss⟩, rfl⟩
    · exact Or.inr ⟨sc, hsc, ev, ⟨hev,
        Bool.eq_false_iff.mpr (fun hh => hne (List.isEmpty_iff.mp hh)), hmiss⟩, rfl⟩

theorem fsLookup_append_left {fs : FS} {l : FS} {q : Str} (h : (fsLookup fs q).isSome) :
    fsLookup (fs ++ l) q = fsLookup fs q := by
  rw [fsLookup, List.find?_append]
  rcases Option.isSome_iff_exists.mp h with ⟨v, hv⟩
  rw [fsLookup] at hv
  rcases Option.map_eq_some'.mp hv with ⟨e, he, hev⟩
  rw [he]
  simp [fsLookup, he, hev]

theorem fsLookup_save_file (fs : FS) (q p c : Str) (h : (fsLookup fs q).isSome) :
    fsLookup ((save_file fs p c).1) q = fsLookup fs q := by
  rw [save_file]
  by_cases hp : (fsLookup fs p).isSome
  · simp [hp]
  · simp only [hp, Bool.false_eq_true, if_false]
    exact fsLookup_append_left h

theorem fsLookup_runSaves (writes : List (Str × Str)) :
    ∀ (fs : FS) (q : Str), (fsLookup fs q).isSome →
      fsLookup (runSaves fs writes) q = fsLookup fs q := by
  induction writes with
  | nil => intro fs q _; rw [runSaves]; rfl
  | cons w rest ih =>
      intro fs q h
      have h1 := fsLookup_save_file fs q w.1 w.2 h
      have h2 : (fsLookup ((save_file fs w.1 w.2).1) q).isSome := by
        rw [h1]; exact h
      calc fsLookup (runSaves fs (w :: rest)) q
          = fsLookup (runSaves ((save_file fs w.1 w.2).1) rest) q := rfl
        _ = fsLookup ((save_file fs w.1 w.2).1) q := ih _ q h2
        _ = fsLookup fs q := h1

/-! ### Claim theorems -/

/-- C7 (amended): the resolved node value equals `default_value` whenever
that is present — including the empty string — and falls back to the
`regex` placeholder only when `default_value` is absent (`None`). -/
theorem C7_resolve_node_value_amended : ∀ n : SchemaNode,
    (∀ v, n.default_value = some v → resolve_node_value n = some v) ∧
    (n.default_value = none → resolve_node_value n = n.regex.map Val.str) := by
  intro n
  constructor
  · intro v hv
    rw [resolve_node_value, hv]
  · intro hn
    rw [resolve_node_value, hn]

/-- C7 (counterexample): a node whose `default_value` is the empty string
and whose `regex` is `R` resolves to the empty string, not to the regex
placeholder — refuting "falls back to the regex whenever `default_value`
is absent or empty". -/
theorem C7_counterexample :
    fixEmptyDefault.default_value = some (Val.str []) ∧
    fixEmptyDefault.regex = some "R".data ∧
    resolve_node_value fixEmptyDefault = some (Val.str []) ∧
    ¬ resolve_node_value fixEmptyDefault = some (Val.str "R".data) := by
  refine ⟨rfl, rfl, rfl, ?_⟩
  intro h
  rw [show resolve_node_value fixEmptyDefault = some (Val.str []) from rfl] at h
  simp at h

/-- C7 witness: the amended theorem applied to a concrete node with an
absent default, and to one with an empty-string default. -/
theorem C7_witness :
    resolve_node_value fixRegexOnly = some (Val.str "R".data) ∧
    resolve_node_value fixEmptyDefault = some (Val.str []) := by
  constructor
  · have h := (C7_resolve_node_value_amended fixRegexOnly).2 rfl
    simpa using h
  · exact (C7_resolve_node_value_amended fixEmptyDefault).1 (Val.str []) rfl

/-- C8: pre-existing files survive a generation run unchanged — every write
goes through `save_file`, which skips (with the warning flag) any path that
already exists and only appends paths that do not. -/
theorem C8_no_overwrite : ∀ (fs : FS) (writes : List (Str × Str)) (p content old : Str),
    fsLookup fs p = some old →
    fsLookup (runSaves fs writes) p = some old ∧
    (save_file fs p content).1 = fs ∧ (save_file fs p content).2 = true := by
  intro fs writes p content old h
  have hs : (fsLookup fs p).isSome := by rw [h]; rfl
  refine ⟨?_, ?_, ?_⟩
  · rw [fsLookup_runSaves writes fs p hs, h]
  · rw [save_file, if_pos hs]
  · rw [save_file, if_pos hs]

/-- C8 witness: a run over a file system already containing `out.yml`
leaves its contents intact and flags the skip. -/
theorem C8_witness :
    fsLookup (runSaves [("out.yml".data, "old".data)]
        [("out.yml".data, "new".data), ("other".data, "x".data)]) "out.yml".data
      = some "old".data ∧
    (save_file [("out.yml".data, "old".data)] "out.yml".data "new".data).2 = true := by
  have h := C8_no_overwrite [("out.yml".data, "old".data)]
    [("out.yml".data, "new".data), ("other".data, "x".data)]
    "out.yml".data "new".data "old".data (by rfl)
  exact ⟨h.1, h.2.2⟩

/-- C9: an override node with an empty key is skipped by `merge_nodes`:
it is neither merged nor appended, and the base list is returned
unchanged. -/
theorem C9_empty_key_override_inert : ∀ (base : List SchemaNode) (ov : SchemaNode),
    ov.key = [] → mergeList base [ov] = base := by
  intro base ov h
  rw [mergeList_cons, mergeOne_empty base h, mergeList_nil]

/-- C9 witness: merging a concrete empty-keyed override into a concrete
base list returns the base list. -/
theorem C9_witness : mergeList [fixN1] [fixEmptyKey] = [fixN1] :=
  C9_empty_key_override_inert [fixN1] fixEmptyKey rfl

/-- C10: `validate_required_env_vars` tests only key membership — a
required key mapped to the empty string is present, hence never collected
as missing. -/
theorem C10_membership_only : ∀ (cfg : AppConfig) (active : List ScenarioConfig)
    (env : Env) (k : Str),
    envGet? env k = some [] → ¬ k ∈ missingEnvKeys cfg active env := by
  intro cfg active env k hk hmem
  have hhas := envHasKey_of_get hk
  have := (mem_missingEnvKeys.mp hmem).2.2
  rw [hhas] at this
  simp at this

/-- C10 witness: a required variable set to the empty string raises no
error. -/
theorem C10_witness :
    ¬ "REQUIRED_VAR".data ∈ missingEnvKeys
      ⟨[], "SCENARIO_TYPE".data, 2, [⟨"REQUIRED_VAR".data, []⟩], []⟩ []
      [("REQUIRED_VAR".data, [])] :=
  C10_membership_only _ [] [("REQUIRED_VAR".data, [])] "REQUIRED_VAR".data rfl

theorem isInfix_append_left (s : Str) {x t : Str} (h : x <:+: t) : x <:+: s ++ t := by
  rcases h with ⟨u, v, huv⟩
  exact ⟨s ++ u, v, by rw [← huv]; simp⟩

theorem infix_joinSep {sep : Str} {l : List Str} {x : Str} (h : x ∈ l) :
    x <:+: joinSep sep l := by
  induction l with
  | nil => cases h
  | cons a rest ih =>
      rcases List.mem_cons.mp h with rfl | hm
      · cases rest with
        | nil => exact List.infix_rfl
        | cons b r =>
            rw [joinSep]
            exact ⟨[], sep ++ joinSep sep (b :: r), by simp⟩
      · cases rest with
        | nil => cases hm
        | cons b r =>
            rw [joinSep]
            have hx := ih hm
            have h1 : x <:+: sep ++ joinSep sep (b :: r) := isInfix_append_left sep hx
            have h2 := isInfix_append_left a h1
            simpa [List.append_assoc] using h2

theorem validate_none_iff {cfg : AppConfig} {active : List ScenarioConfig} {env : Env} :
    validate_required_env_vars cfg active env = none ↔
      missingEnvKeys cfg active env = [] := by
  rw [validate_required_env_vars]
  by_cases hmd : ((missingEnvKeys cfg active env).dedup).isEmpty = true
  · simp only [hmd, if_true]
    have := List.isEmpty_iff.mp hmd
    rw [List.dedup_eq_nil] at this
    simp [this]
  · simp only [hmd, Bool.false_eq_true, if_false]
    constructor
    · intro hc; cases hc
    · intro hc
      rw [hc] at hmd
      simp at hmd

/-- C3 (amended): `validate_required_env_vars` errors iff some *non-empty*
key in the union of `default_env_vars` and the active scenarios'
`required_env_vars` is absent from the environment (empty-string keys are
skipped), and the error message starts with
`Missing required environment variables` and contains every missing
name. -/
theorem C3_validate_required_env_vars_amended : ∀ (cfg : AppConfig)
    (active : List ScenarioConfig) (env : Env),
    ((validate_required_env_vars cfg active env).isSome ↔
      ∃ k ∈ unionEnvVarKeys cfg active, ¬ k = [] ∧ envHasKey env k = false) ∧
    (∀ msg, validate_required_env_vars cfg active env = some msg →
      missingMsgPrefix <+: msg ∧
      ∀ k ∈ missingEnvKeys cfg active env, k <:+: msg) := by
  intro cfg active env
  constructor
  · constructor
    · intro hsome
      have hne : ¬ missingEnvKeys cfg active env = [] := by
        intro hnil
        rw [← validate_none_iff] at hnil
        rw [hnil] at hsome
        cases hsome
      rcases List.exists_mem_of_ne_nil _ hne with ⟨k, hk⟩
      rcases mem_missingEnvKeys.mp hk with ⟨h1, h2, h3⟩
      exact ⟨k, h1, h2, h3⟩
    · rintro ⟨k, hk, hne, hmiss⟩
      have hmem : k ∈ missingEnvKeys cfg active env :=
        mem_missingEnvKeys.mpr ⟨hk, hne, hmiss⟩
      have hnil : ¬ missingEnvKeys cfg active env = [] := by
        intro h; rw [h] at hmem; cases hmem
      rw [Option.isSome_iff_ne_none]
      intro hnone
      exact hnil (validate_none_iff.mp hnone)
  · intro msg hmsg
    rw [validate_required_env_vars] at hmsg
    by_cases hmd : ((missingEnvKeys cfg active env).dedup).isEmpty = true
    · rw [if_pos hmd] at hmsg; cases hmsg
    · rw [if_neg hmd] at hmsg
      have hmsg' : msg = missingMsgPrefix
          ++ joinSep (", ".data) (missingEnvKeys cfg active env).dedup :=
        (Option.some.inj hmsg).symm
      subst hmsg'
      refine ⟨⟨_, rfl⟩, ?_⟩
      intro k hk
      have hkd : k ∈ (missingEnvKeys cfg active env).dedup := List.mem_dedup.mpr hk
      exact isInfix_append_left missingMsgPrefix (infix_joinSep hkd)

/-- The orchestrator configuration of the C3 counterexample: a single
required-variable definition whose key is the empty string. -/
def cfgC3 : AppConfig :=
  ⟨[], "SCENARIO_TYPE".data, 2, [⟨[], "doc".data⟩], []⟩

/-- C3 (counterexample): an `EnvVarDef` whose key is the empty string is in
the union and absent from the empty environment, yet no error is raised —
refuting the claimed "if and only if" (the code skips empty keys via
`if ev.key and ...`). -/
theorem C3_counterexample :
    validate_required_env_vars cfgC3 [] [] = none ∧
    ([] : Str) ∈ unionEnvVarKeys cfgC3 [] ∧ envHasKey [] ([] : Str) = false := by
  refine ⟨rfl, ?_, rfl⟩
  simp [unionEnvVarKeys, cfgC3]

/-- The orchestrator configuration of the C3 witness: one genuinely
required variable. -/
def cfgC3W : AppConfig :=
  ⟨[], "SCENARIO_TYPE".data, 2, [⟨"REQUIRED_VAR".data, []⟩], []⟩

/-- C3 witness: with `REQUIRED_VAR` required and absent, the amended
theorem yields a message carrying the fixed prefix and the variable
name. -/
theorem C3_witness :
    ∃ msg, validate_required_env_vars cfgC3W [] [] = some msg ∧
      missingMsgPrefix <+: msg ∧ "REQUIRED_VAR".data <:+: msg := by
  have h := C3_validate_required_env_vars_amended cfgC3W [] []
  have e : validate_required_env_vars cfgC3W [] []
      = some (missingMsgPrefix ++ "REQUIRED_VAR".data) := rfl
  have hmem : "REQUIRED_VAR".data ∈ missingEnvKeys cfgC3W [] [] := by
    simp [missingEnvKeys, cfgC3W, envHasKey]
  exact ⟨_, e, ((h.2 _ e).1), (h.2 _ e).2 _ hmem⟩

/-! ### Characterizing `last_raw_index` -/

theorem lastRawAux_snd (l : List SourceRec) (p : Int × Int) :
    (l.foldl lastRawStep p).2 = p.2 + l.length := by
  induction l generalizing p with
  | nil => simp
  | cons s rest ih =>
      rw [List.foldl_cons, ih]
      simp [lastRawStep]
      omega

theorem lastRawIndex_concat (l : List SourceRec) (s : SourceRec) :
    lastRawIndex (l ++ [s]) =
      if s.ftype == FType.raw then (l.length : Int) else lastRawIndex l := by
  rw [lastRawIndex, List.foldl_append]
  rw [show ∀ q : Int × Int, List.foldl lastRawStep q [s] = lastRawStep q s from fun q => rfl]
  rw [lastRawStep]
  by_cases h : s.ftype == FType.raw
  · simp [h, lastRawAux_snd]
  · simp [h, lastRawIndex]

theorem lastRawIndex_eq_neg_one_iff (l : List SourceRec) :
    lastRawIndex l = -1 ↔ ∀ s ∈ l, s.ftype = FType.json := by
  induction l using List.reverseRecOn with
  | nil => simp [lastRawIndex]
  | append_singleton l s ih =>
      rw [lastRawIndex_concat]
      by_cases h : s.ftype = FType.raw
      · have hb : (s.ftype == FType.raw) = true := by simp [h]
        rw [hb]
        simp only [if_true]
        constructor
        · intro hc
          have : (0 : Int) ≤ l.length := Int.natCast_nonneg _
          omega
        · intro hall
          have := hall s (by simp)
          rw [h] at this
          cases this
      · have hj : s.ftype = FType.json := by
          cases hf : s.ftype
          · rfl
          · exact absurd hf h
        have hb : (s.ftype == FType.raw) = false := by simp [hj]
        rw [hb]
        simp only [Bool.false_eq_true, if_false]
        rw [ih]
        constructor
        · intro hall t ht
          rcases List.mem_append.mp ht with hm | hm
          · exact hall t hm
          · rcases List.mem_singleton.mp hm with rfl
            exact hj
        · intro hall t ht
          exact hall t (List.mem_append.mpr (Or.inl ht))

theorem lastRawIndex_bounds (l : List SourceRec) :
    -1 ≤ lastRawIndex l ∧ lastRawIndex l < (l.length : Int) := by
  induction l using List.reverseRecOn with
  | nil => simp [lastRawIndex]
  | append_singleton l s ih =>
      rw [lastRawIndex_concat]
      have hlen : ((l ++ [s]).length : Int) = (l.length : Int) + 1 := by
        simp
      by_cases h : s.ftype == FType.raw
      · rw [if_pos h, hlen]
        constructor
        · have : (0 : Int) ≤ l.length := Int.natCast_nonneg _
          omega
        · omega
      · rw [if_neg h, hlen]
        omega

theorem lastRawIndex_last_iff (l : List SourceRec) (s : SourceRec) :
    lastRawIndex (l ++ [s]) = ((l ++ [s]).length : Int) - 1 ↔ s.ftype = FType.raw := by
  rw [lastRawIndex_concat]
  have hlen : ((l ++ [s]).length : Int) = (l.length : Int) + 1 := by simp
  by_cases h : s.ftype = FType.raw
  · have hb : (s.ftype == FType.raw) = true := by simp [h]
    rw [hb]
    simp only [if_true, hlen]
    constructor
    · intro _; exact h
    · intro _; omega
  · have hb : (s.ftype == FType.raw) = false := by simp [h]
    rw [hb]
    simp only [Bool.false_eq_true, if_false, hlen]
    constructor
    · intro hc
      have := (lastRawIndex_bounds l).2
      omega
    · intro hc; exact absurd hc h

theorem planDestination_conflict_iff (sources : List SourceRec) :
    planDestination sources = DestAction.conflictError ↔
      (lastRawIndex sources ≠ -1 ∧
        lastRawIndex sources < (sources.length : Int) - 1) := by
  rw [planDestination]
  by_cases h : lastRawIndex sources ≠ -1 ∧
      lastRawIndex sources < (sources.length : Int) - 1
  · rw [if_pos h]
    simp [h]
  · rw [if_neg h]
    constructor
    · intro hc
      by_cases h2 : lastRawIndex sources = (sources.length : Int) - 1
      · rw [if_pos h2] at hc; cases hc
      · rw [if_neg h2] at hc; cases hc
    · intro hc; exact absurd hc h

/-- C4 (amended): `generate_output_files` reports a conflict and skips a
destination exactly when its ordered source list contains a raw source and
its *final* source is json-typed (equivalently, the last raw source is
followed by a json source); and every destination of the file map is still
processed. -/
theorem C4_raw_over_schema_conflict_amended :
    (∀ sources : List SourceRec,
      planDestination sources = DestAction.conflictError ↔
        ((∃ s ∈ sources, s.ftype = FType.raw) ∧
          ∃ last, sources.getLast? = some last ∧ last.ftype = FType.json)) ∧
    (∀ (fm : List (Str × List SourceRec)) (env : Env),
      (generate_output_files fm env).length = fm.length) := by
  constructor
  · intro sources
    rw [planDestination_conflict_iff]
    induction sources using List.reverseRecOn with
    | nil =>
        simp [lastRawIndex]
    | append_singleton l s _ =>
        have hlast : (l ++ [s]).getLast? = some s := by
          simp
        have hlen : ((l ++ [s]).length : Int) = (l.length : Int) + 1 := by simp
        have hbounds := lastRawIndex_bounds (l ++ [s])
        have hB3 := lastRawIndex_last_iff l s
        have hB1 := lastRawIndex_eq_neg_one_iff (l ++ [s])
        constructor
        · rintro ⟨hne, hlt⟩
          constructor
          · by_contra hnoraw
            push_neg at hnoraw
            have : ∀ t ∈ l ++ [s], t.ftype = FType.json := by
              intro t ht
              cases hf : t.ftype
              · rfl
              · exact absurd hf (hnoraw t ht)
            exact hne (hB1.mpr this)
          · refine ⟨s, hlast, ?_⟩
            cases hf : s.ftype
            · rfl
            · exfalso
              have h2 := hB3.mpr hf
              omega
        · rintro ⟨⟨t, ht, htraw⟩, last, hlastEq, hlastJson⟩
          have hsl : last = s := by
            rw [hlast] at hlastEq
            exact (Option.some.inj hlastEq).symm
          subst hsl
          constructor
          · intro hc
            have := hB1.mp hc t ht
            rw [htraw] at this
            cases this
          · have hsnotraw : ¬ last.ftype = FType.raw := by
              rw [hlastJson]
              intro hc
              cases hc
            have hne3 : ¬ lastRawIndex (l ++ [last]) = ((l ++ [last]).length : Int) - 1 :=
              fun hc => hsnotraw (hB3.mp hc)
            have := hbounds.2
            omega
  · intro fm env
    rw [generate_output_files, List.length_map]

/-- A raw source from the lowest-precedence scenario. -/
def srcRaw1 : SourceRec := ⟨"base/foo.ini".data, .raw, "base".data⟩

/-- A json source from a middle scenario, same destination. -/
def srcJson1 : SourceRec := ⟨"mid/foo.ini.json".data, .json, "mid".data⟩

/-- A raw source from the highest-precedence scenario, same destination. -/
def srcRaw2 : SourceRec := ⟨"top/foo.ini".data, .raw, "top".data⟩

/-- The C4 counterexample source list: raw before json, but another raw
last. -/
def srcsC4 : List SourceRec := [srcRaw1, srcJson1, srcRaw2]

/-- C4 (counterexample): the source list `[raw, json, raw]` has a raw-type
source at an earlier index than a json-type source, yet the code performs a
raw copy (writing a file) instead of reporting an error for the
destination. -/
theorem C4_counterexample :
    srcsC4[0]? = some srcRaw1 ∧ srcRaw1.ftype = FType.raw ∧
    srcsC4[1]? = some srcJson1 ∧ srcJson1.ftype = FType.json ∧
    planDestination srcsC4 = DestAction.rawCopy (some srcRaw2) ∧
    ¬ planDestination srcsC4 = DestAction.conflictError := by
  decide

/-! ### Destination naming (`collect_scenario_files`) -/

theorem takeWhile_append_all {p : Char → Bool} {l₁ : Str} (l₂ : Str)
    (h : ∀ c ∈ l₁, p c = true) :
    (l₁ ++ l₂).takeWhile p = l₁ ++ l₂.takeWhile p := by
  induction l₁ with
  | nil => simp
  | cons c rest ih =>
      have hc : p c = true := h c (List.mem_cons_self c rest)
      rw [List.cons_append, List.takeWhile_cons, hc]
      simp only [if_true]
      rw [ih (fun d hd => h d (List.mem_cons_of_mem c hd)), List.cons_append]

theorem basenameOf_append (stem : Str) {sfx : Str} (h : ∀ c ∈ sfx, (!(c == '/')) = true) :
    basenameOf (stem ++ sfx) = basenameOf stem ++ sfx := by
  rw [basenameOf, basenameOf, List.reverse_append]
  rw [takeWhile_append_all stem.reverse (by intro c hc; exact h c (List.mem_reverse.mp hc))]
  rw [List.reverse_append, List.reverse_reverse]

theorem suffix_eq_of_length {s1 s2 l : Str} (h : s1 <:+ l ++ s2)
    (hl : s1.length = s2.length) : s1 = s2 := by
  rcases h with ⟨t, ht⟩
  exact (List.append_inj' ht hl).2

theorem no_slash_yml : ∀ c ∈ ymlJsonSuffix, (!(c == '/')) = true := by decide

theorem no_slash_ini : ∀ c ∈ iniJsonSuffix, (!(c == '/')) = true := by decide

/-- C5 (amended): a collected `foo.yml.json` file maps to destination
`foo.yml` (only `.json` stripped), while a collected `bar.ini.json` file
maps to destination `bar` — the code strips the whole 9-character
`.ini.json` suffix, not just `.json`. -/
theorem C5_destination_stripping_amended : ∀ stem₁ stem₂ : Str,
    ¬ (basenameOf (stem₁ ++ ymlJsonSuffix)).head? = some '.' →
    ¬ (basenameOf (stem₂ ++ iniJsonSuffix)).head? = some '.' →
    collectEntry (stem₁ ++ ymlJsonSuffix) = some (stem₁ ++ ".yml".data, FType.json) ∧
    collectEntry (stem₂ ++ iniJsonSuffix) = some (stem₂, FType.json) := by
  intro stem₁ stem₂ h1 h2
  constructor
  · have hb := basenameOf_append stem₁ no_slash_yml
    have hdot : ((basenameOf (stem₁ ++ ymlJsonSuffix)).head? == some '.') = false := by
      rw [beq_eq_false_iff_ne]
      exact h1
    have hini : iniJsonSuffix.isSuffixOf (basenameOf (stem₁ ++ ymlJsonSuffix)) = false := by
      rw [Bool.eq_false_iff]
      intro hc
      rw [List.isSuffixOf_iff_suffix, hb] at hc
      have := suffix_eq_of_length hc (by rfl)
      exact absurd this (by decide)
    have hyml : ymlJsonSuffix.isSuffixOf (basenameOf (stem₁ ++ ymlJsonSuffix)) = true := by
      rw [List.isSuffixOf_iff_suffix, hb]
      exact List.suffix_append (basenameOf stem₁) ymlJsonSuffix
    rw [collectEntry]
    simp only [hdot, hini, hyml, Bool.false_eq_true, if_false, if_true]
    have hsplit : stem₁ ++ ymlJsonSuffix = (stem₁ ++ ".yml".data) ++ ".json".data := by
      rw [List.append_assoc]
      rfl
    rw [hsplit]
    have hlen : (stem₁ ++ ".yml".data).length
        = ((stem₁ ++ ".yml".data) ++ ".json".data).length - 5 := by
      simp
    exact congrArg some (congrArg (fun z => (z, FType.json)) (List.take_left' hlen))
  · have hb := basenameOf_append stem₂ no_slash_ini
    have hdot : ((basenameOf (stem₂ ++ iniJsonSuffix)).head? == some '.') = false := by
      rw [beq_eq_false_iff_ne]
      exact h2
    have hini : iniJsonSuffix.isSuffixOf (basenameOf (stem₂ ++ iniJsonSuffix)) = true := by
      rw [List.isSuffixOf_iff_suffix, hb]
      exact List.suffix_append (basenameOf stem₂) iniJsonSuffix
    rw [collectEntry]
    simp only [hdot, hini, Bool.false_eq_true, if_false, if_true]
    have hlen : stem₂.length = (stem₂ ++ iniJsonSuffix).length - 9 := by
      simp [iniJsonSuffix]
    exact congrArg some (congrArg (fun z => (z, FType.json)) (List.take_left' hlen))

/-- C5 (counterexample): the concrete file `bar.ini.json` maps to
destination `bar`, not `bar.ini` as the claim states. -/
theorem C5_counterexample :
    collectEntry "bar.ini.json".data = some ("bar".data, FType.json) ∧
    ¬ ("bar".data : Str) = "bar.ini".data := by
  constructor
  · rfl
  · decide

/-- C5 witness: the amended mapping evaluated at concrete stems. -/
theorem C5_witness :
    collectEntry ("foo".data ++ ymlJsonSuffix) = some ("foo".data ++ ".yml".data, FType.json) ∧
    collectEntry ("bar".data ++ iniJsonSuffix) = some ("bar".data, FType.json) :=
  C5_destination_stripping_amended "foo".data "bar".data (by decide) (by decide)

/-! ### Quoting of boolean-like words -/

theorem matchBoolWord_cases {s : Str} (h : matchBoolWord s = true) :
    ciWord s = true ∨ ∃ t : Str, s = t ++ ['\n'] ∧ ciWord t = true := by
  rw [matchBoolWord, Bool.or_eq_true] at h
  rcases h with h | h
  · exact Or.inl h
  · right
    split at h
    · rename_i t heq
      refine ⟨t.reverse, ?_, h⟩
      rw [← s.reverse_reverse, heq, List.reverse_cons]
    · cases h

theorem char_not_mem_of_ciWord {s : Str} {c : Char} (hfix : asciiLower c = c)
    (hno : ∀ w ∈ boolWords, ¬ c ∈ w) (h : ciWord s = true) : ¬ c ∈ s := by
  intro hmem
  rw [ciWord, List.any_eq_true] at h
  rcases h with ⟨w, hw, hmap⟩
  rw [beq_iff_eq] at hmap
  have : asciiLower c ∈ s.map asciiLower := List.mem_map_of_mem asciiLower hmem
  rw [hmap, hfix] at this
  exact hno w hw this

theorem quote_not_mem_of_matchBoolWord {s : Str} (h : matchBoolWord s = true) :
    ¬ '"' ∈ s ∧ ¬ '\'' ∈ s := by
  have hq : asciiLower '"' = '"' := by decide
  have hq' : asciiLower '\'' = '\'' := by decide
  have hnoq : ∀ w ∈ boolWords, ¬ '"' ∈ w := by decide
  have hnoq' : ∀ w ∈ boolWords, ¬ '\'' ∈ w := by decide
  rcases matchBoolWord_cases h with h | ⟨t, rfl, ht⟩
  · exact ⟨char_not_mem_of_ciWord hq hnoq h, char_not_mem_of_ciWord hq' hnoq' h⟩
  · constructor
    · intro hmem
      rcases List.mem_append.mp hmem with hm | hm
      · exact char_not_mem_of_ciWord hq hnoq ht hm
      · rcases List.mem_singleton.mp hm with hm
        cases hm
    · intro hmem
      rcases List.mem_append.mp hmem with hm | hm
      · exact char_not_mem_of_ciWord hq' hnoq' ht hm
      · rcases List.mem_singleton.mp hm with hm
        cases hm

theorem escapeQuotes_cons (c : Char) (rest : Str) :
    escapeQuotes (c :: rest) =
      if c == '"' then '\\' :: '"' :: escapeQuotes rest else c :: escapeQuotes rest := rfl

theorem escapeQuotes_of_no_quote {s : Str} (h : ¬ '"' ∈ s) : escapeQuotes s = s := by
  induction s with
  | nil => rfl
  | cons c rest ih =>
      have hcne : ¬ c = '"' := fun hc => h (by rw [hc]; exact List.mem_cons_self _ _)
      have hb : (c == '"') = false := by rw [beq_eq_false_iff_ne]; exact hcne
      rw [escapeQuotes_cons, hb]
      simp only [Bool.false_eq_true, if_false]
      rw [ih (fun hm => h (List.mem_cons_of_mem c hm))]

/-- C6 (amended): `_format_yaml_scalar_string` wraps every string matching
the case-insensitive `true|false|yes|no|on|off` regex in double quotes;
`format_smart_quoted_string` does not (see the counterexample). -/
theorem C6_bool_like_quoting_amended : ∀ s : Str, matchBoolWord s = true →
    _format_yaml_scalar_string s = '"' :: (s ++ ['"']) := by
  intro s h
  rcases quote_not_mem_of_matchBoolWord h with ⟨hnq, hnq'⟩
  have h1 : (s.head? == some '"') = false := by
    rw [beq_eq_false_iff_ne]
    intro hc
    exact hnq (List.mem_of_mem_head? (Option.mem_def.mpr hc))
  have h2 : (s.head? == some '\'') = false := by
    rw [beq_eq_false_iff_ne]
    intro hc
    exact hnq' (List.mem_of_mem_head? (Option.mem_def.mpr hc))
  rw [_format_yaml_scalar_string]
  have hcond : ((s.head? == some '"' && s.getLast? == some '"')
      || (s.head? == some '\'' && s.getLast? == some '\'')) = false := by
    rw [h1, h2]
    simp
  rw [hcond]
  simp only [Bool.false_eq_true, if_false]
  have hneeds : (s.isEmpty || matchBoolWord s || matchNumDots s
      || s.any (fun c => dangerousScalarChars.contains c) || hasEnvSub s) = true := by
    rw [h]
    simp
  rw [hneeds]
  simp only [if_true]
  rw [escapeQuotes_of_no_quote hnq]

/-- C6 (counterexample): `format_smart_quoted_string` — the minimal-quoting
formatter shared by both renderers — returns the bool-like string `true`
bare, not wrapped in double quotes. -/
theorem C6_counterexample :
    format_smart_quoted_string (fun t => t) "true".data = "true".data ∧
    matchBoolWord "true".data = true ∧
    ¬ format_smart_quoted_string (fun t => t) "true".data
        = '"' :: ("true".data ++ ['"']) := by
  refine ⟨rfl, by decide, ?_⟩
  intro h
  cases h

/-- C6 witness: the amended theorem applied to the concrete string
`True`. -/
theorem C6_witness :
    _format_yaml_scalar_string "True".data = '"' :: ("True".data ++ ['"']) :=
  C6_bool_like_quoting_amended "True".data (by decide)

/-! ### Scenario activation -/

theorem all_map_id {α : Type} (l : List α) (f : α → Bool) :
    (l.map f).all (fun x => x) = l.all f := by
  induction l with
  | nil => rfl
  | cons a rest ih => simp [ih]

theorem any_map_id {α : Type} (l : List α) (f : α → Bool) :
    (l.map f).any (fun x => x) = l.any f := by
  induction l with
  | nil => rfl
  | cons a rest ih => simp [ih]

theorem activation_foldl (rs : Str → Str → Bool) (cfg : AppConfig) (env : Env) :
    ∀ (l : List ScenarioConfig) (init : List ScenarioConfig),
      l.foldl
        (fun acc sc =>
          if triggerActive rs cfg env sc then acc ++ [reassignPriority sc] else acc)
        init
        = init ++ (l.filter (triggerActive rs cfg env)).map reassignPriority := by
  intro l
  induction l with
  | nil => intro init; simp
  | cons sc rest ih =>
      intro init
      rw [List.foldl_cons]
      by_cases h : triggerActive rs cfg env sc
      · rw [if_pos h, ih, List.filter_cons_of_pos h]
        simp [List.append_assoc]
      · rw [if_neg h, ih, List.filter_cons_of_neg h]

theorem firesAmended_eq_triggerActive (rs : Str → Str → Bool) (cfg : AppConfig)
    (env : Env) (sc : ScenarioConfig) :
    firesAmendedC1 rs cfg env sc = triggerActive rs cfg env sc := by
  rcases sc with ⟨v, pth, ⟨src, logic, conds⟩, req, prio⟩
  cases src
  · rfl
  · rfl
  · rw [firesAmendedC1, triggerActive]
    simp only
    by_cases he : conds.isEmpty = true
    · rw [he]
      simp
    · have he' : conds.isEmpty = false := Bool.eq_false_iff.mpr he
      rw [he']
      cases logic
      · simp [all_map_id]
      · simp [any_map_id]

/-- C1 (amended): `determine_active_scenarios` returns exactly the
scenarios whose trigger fires — `default` always fires (with priority
reassigned to 9999), `user` fires iff the environment value under the
scenario env key equals the scenario's `value`, and `env` fires iff its
condition list is non-empty and the regex searches combined under its
`and`/`or` logic succeed — as a list sorted by priority in descending
numeric order. -/
theorem C1_determine_active_scenarios_amended :
    ∀ (rs : Str → Str → Bool) (cfg : AppConfig) (env : Env),
      List.Perm (determine_active_scenarios rs cfg env)
        ((cfg.scenarios.filter (firesAmendedC1 rs cfg env)).map reassignPriority) ∧
      List.Sorted prioDesc (determine_active_scenarios rs cfg env) := by
  intro rs cfg env
  have hact := activation_foldl rs cfg env cfg.scenarios []
  rw [List.nil_append] at hact
  have hfeq : cfg.scenarios.filter (firesAmendedC1 rs cfg env)
      = cfg.scenarios.filter (triggerActive rs cfg env) :=
    List.filter_congr (fun x _ => firesAmended_eq_triggerActive rs cfg env x)
  constructor
  · rw [determine_active_scenarios]
    simp only [hact, hfeq]
    exact List.perm_insertionSort prioDesc _
  · rw [determine_active_scenarios]
    exact List.sorted_insertionSort prioDesc _

/-- The C1 counterexample scenario: `env`-source, `and`-logic, empty
condition list. -/
def scC1 : ScenarioConfig := ⟨"edge".data, [], ⟨.env, .and, []⟩, [], 5⟩

/-- The C1 counterexample configuration. -/
def cfgC1 : AppConfig := ⟨[], "SCENARIO_TYPE".data, 2, [], [scC1]⟩

/-- C1 (counterexample): under the claim's reading, an `and` over an empty
condition list succeeds vacuously, so the scenario fires; the code
explicitly deactivates `env`-source scenarios with no conditions and
returns the empty list. -/
theorem C1_counterexample :
    determine_active_scenarios (fun _ _ => false) cfgC1 [] = [] ∧
    firesClaimC1 (fun _ _ => false) cfgC1 [] scC1 = true ∧
    ¬ List.Perm (determine_active_scenarios (fun _ _ => false) cfgC1 [])
        ((cfgC1.scenarios.filter
          (firesClaimC1 (fun _ _ => false) cfgC1 [])).map reassignPriority) := by
  refine ⟨rfl, rfl, ?_⟩
  intro hperm
  exact absurd hperm.length_eq (by decide)

/-! ### Merge associativity -/

/-- C2: when no node at any depth of `A`, `B`, `C` carries override
strategy `replace`, `merge_nodes` is associative:
`merge(merge(A,B),C) = merge(A,merge(B,C))`. -/
theorem C2_merge_nodes_assoc : ∀ A B C : List SchemaNode,
    noReplaceList A = true → noReplaceList B = true → noReplaceList C = true →
    mergeList (mergeList A B) C = mergeList A (mergeList B C) := by
  intro A B C hA hB hC
  rw [← mergeList_append]
  exact (merge_assoc_grand (lsize C)).2.2 A B C le_rfl hA hB hC

/-- C2 witness: associativity at three concrete single-node lists. -/
theorem C2_witness :
    noReplaceList [fixN1] = true ∧ noReplaceList [fixN2] = true ∧
    noReplaceList [fixN3] = true ∧
    mergeList (mergeList [fixN1] [fixN2]) [fixN3]
      = mergeList [fixN1] (mergeList [fixN2] [fixN3]) := by
  have e1 : noReplaceList [fixN1] = true := by
    simp [noReplaceList, noReplace, fixN1, replaceStr]
  have e2 : noReplaceList [fixN2] = true := by
    simp [noReplaceList, noReplace, fixN2, replaceStr]
  have e3 : noReplaceList [fixN3] = true := by
    simp [noReplaceList, noReplace, fixN3, replaceStr]
  exact ⟨e1, e2, e3, C2_merge_nodes_assoc [fixN1] [fixN2] [fixN3] e1 e2 e3⟩

end YamlGen
